import Mathlib

/-!
Verification of the oblibeny static analyzer (rust-parser): a shallow
embedding of the AST data model (`ast/expr.rs`, `ast/types.rs`), the
phase separator (`phases/separator.rs`), the call-graph builder
(`analyzer/call_graph.rs`), the termination checker
(`analyzer/termination.rs`) and the resource analyzer
(`analyzer/resources.rs`), together with theorems settling the spec's
claims about them.

Modelling conventions:
- Rust `u64` quantities are modelled on `Nat` with wrapping (release)
  semantics made explicit: every `u64` addition and multiplication of
  the source (`ResourceBounds::add`/`multiply`, the `+=` cost updates,
  the array-literal sizing) reduces `% 2^64`, as does the
  two's-complement cast of an `i64` to `u64` in the `SleepMs` arm.
  The overflow-free fragment is characterised by the
  specification-side exact analyzer (`analyzeExact`) and the
  `ResourceBounds.Bounded` predicate.
- Rust `i64` literals are modelled on `Int`.
- `f64` payloads are never inspected by any analysis; they are carried
  as an opaque bit pattern.
- Methods whose `&self` receiver is unused in the source
  (`loop_ranking_function`, `are_bounds_finite`, `eval_const_diff`) and
  the constant cost table built by `ResourceAnalyzer::new` are modelled
  as plain functions.
-/

namespace Oblibeny

/-- Resource types, from `ast/types.rs` (`ResourceType`). -/
inductive ResourceType where
  | UartTx | UartRx | Gpio | I2c | Spi | SensorRead | NetworkSend | NetworkRecv
deriving DecidableEq, Repr

/-- Source-language types, from `ast/types.rs` (`Type`; named `Ty` here
because `Type` is a Lean keyword). -/
inductive Ty where
  | int32 | int64 | uint32 | uint64 | float32 | float64 | bool | string | void
  | array (elem_type : Ty) (size : Nat)
  | capability (resource : ResourceType)
  | function (params : List Ty) (return_type : Ty)

/-- Function parameters, from `ast/types.rs` (`Parameter`). -/
structure Parameter where
  name : String
  type_annotation : Option Ty

/-- Resource kinds, from `ast/expr.rs` (`ResourceKind`). -/
inductive ResourceKind where
  | TimeMs | MemoryBytes | NetworkBytes | StorageBytes
deriving DecidableEq, Repr

/-- Resource specifications, from `ast/expr.rs` (`ResourceSpec`);
`amount` is a `u64`. -/
structure ResourceSpec where
  kind : ResourceKind
  amount : Nat
deriving DecidableEq, Repr

/-- Phase tags, from `ast/expr.rs` (`Phase`). -/
inductive Phase where
  | Compile | Deploy | Mixed
deriving DecidableEq, Repr

mutual
/-- AST expressions, from `ast/expr.rs` (`Expr`).  Sequences of
expressions (`Vec<Expr>`) and binding lists (`Vec<(String, Expr)>`) are
represented by the mutually inductive `ExprList` and `Bindings` so that
every traversal of the source is a structural recursion.  The `Macro`,
`Include`, `For`, `While`, `Let`, `Set` and `If` variants are renamed
(`macroForm`, `includeFile`, `forLoop`, `whileLoop`, `letE`, `set`,
`ifE`) to avoid Lean keywords; payloads are kept verbatim. -/
inductive Expr where
  | int (n : Int)
  | float (bits : Nat)
  | bool (b : Bool)
  | string (s : String)
  | ident (name : String)
  | defunDeploy (name : String) (params : List Parameter)
      (return_type : Option Ty) (body : ExprList)
  | boundedFor (var : String) (start : Expr) (stop : Expr) (body : ExprList)
  | withCapability (capability : Expr) (body : ExprList)
  | defunCompile (name : String) (params : List Parameter)
      (return_type : Option Ty) (body : ExprList)
  | macroForm (name : String) (params : List Parameter) (body : ExprList)
  | evalCompile (e : Expr)
  | includeFile (path : String)
  | forLoop (var : String) (iterable : Expr) (body : ExprList)
  | whileLoop (condition : Expr) (body : ExprList)
  | letE (bindings : Bindings) (body : ExprList)
  | set (var : String) (value : Expr)
  | ifE (condition : Expr) (then_branch : Expr) (else_branch : Expr)
  | functionCall (func : Expr) (args : ExprList)
  | arrayLiteral (elem_type : Ty) (size : Nat)
  | arrayGet (array : Expr) (index : Expr)
  | arraySet (array : Expr) (index : Expr) (value : Expr)
  | arrayLength (e : Expr)
  | gpioSet (device : Expr) (value : Expr)
  | gpioGet (device : Expr)
  | uartSend (device : Expr) (data : Expr)
  | uartRecv (device : Expr)
  | sensorRead (device : Expr)
  | networkSend (device : Expr) (data : Expr)
  | networkRecv (device : Expr)
  | sleepMs (ms : Expr)
  | timestamp
  | resourceBudget (specs : List ResourceSpec)
  | defCap (name : String) (params : List Parameter) (description : String)
  | program (name : String) (budget : Expr) (forms : ExprList)

/-- A sequence of expressions (`Vec<Expr>` in the source). -/
inductive ExprList where
  | nil
  | cons (e : Expr) (es : ExprList)

/-- A sequence of let bindings (`Vec<(String, Expr)>` in the source). -/
inductive Bindings where
  | nil
  | cons (name : String) (e : Expr) (bs : Bindings)
end

/-- Spine conversion of an `ExprList` to a `List Expr`. -/
def ExprList.toList : ExprList → List Expr
  | .nil => []
  | .cons e es => e :: es.toList

/-- Spine conversion of `Bindings` to a list of pairs. -/
def Bindings.toList : Bindings → List (String × Expr)
  | .nil => []
  | .cons n e bs => (n, e) :: bs.toList

/-- Worst-case resource bounds, from `analyzer/resources.rs`
(`ResourceBounds`); all four components are `u64` values. -/
@[ext]
structure ResourceBounds where
  time_ms : Nat
  memory_bytes : Nat
  network_bytes : Nat
  storage_bytes : Nat
deriving DecidableEq, Repr

namespace ResourceBounds

/-- `ResourceBounds::new`: the all-zero bounds. -/
def new : ResourceBounds := ⟨0, 0, 0, 0⟩

/-- `ResourceBounds::add` (the source mutates `self`; modelled as
returning the componentwise wrapping `u64` sum). -/
def add (a b : ResourceBounds) : ResourceBounds :=
  ⟨(a.time_ms + b.time_ms) % 2 ^ 64, (a.memory_bytes + b.memory_bytes) % 2 ^ 64,
   (a.network_bytes + b.network_bytes) % 2 ^ 64,
   (a.storage_bytes + b.storage_bytes) % 2 ^ 64⟩

/-- `ResourceBounds::max`: the componentwise maximum. -/
def max (a b : ResourceBounds) : ResourceBounds :=
  ⟨Max.max a.time_ms b.time_ms, Max.max a.memory_bytes b.memory_bytes,
   Max.max a.network_bytes b.network_bytes, Max.max a.storage_bytes b.storage_bytes⟩

/-- `ResourceBounds::multiply`: componentwise wrapping `u64` scaling by
a factor. -/
def multiply (a : ResourceBounds) (factor : Nat) : ResourceBounds :=
  ⟨a.time_ms * factor % 2 ^ 64, a.memory_bytes * factor % 2 ^ 64,
   a.network_bytes * factor % 2 ^ 64, a.storage_bytes * factor % 2 ^ 64⟩

/-- `ResourceBounds::fits_within`: componentwise `≤` against a budget. -/
def fits_within (a budget : ResourceBounds) : Bool :=
  a.time_ms ≤ budget.time_ms
    && a.memory_bytes ≤ budget.memory_bytes
    && a.network_bytes ≤ budget.network_bytes
    && a.storage_bytes ≤ budget.storage_bytes

/-- Specification-side exact (non-wrapping) componentwise sum: what
`add` computes when no `u64` overflow occurs. -/
def addExact (a b : ResourceBounds) : ResourceBounds :=
  ⟨a.time_ms + b.time_ms, a.memory_bytes + b.memory_bytes,
   a.network_bytes + b.network_bytes, a.storage_bytes + b.storage_bytes⟩

/-- Specification-side exact (non-wrapping) componentwise scaling: what
`multiply` computes when no `u64` overflow occurs. -/
def multiplyExact (a : ResourceBounds) (factor : Nat) : ResourceBounds :=
  ⟨a.time_ms * factor, a.memory_bytes * factor,
   a.network_bytes * factor, a.storage_bytes * factor⟩

/-- All four components fit in a `u64`: the absence-of-overflow
condition. -/
def Bounded (a : ResourceBounds) : Prop :=
  a.time_ms < 2 ^ 64 ∧ a.memory_bytes < 2 ^ 64
    ∧ a.network_bytes < 2 ^ 64 ∧ a.storage_bytes < 2 ^ 64

instance (a : ResourceBounds) : Decidable a.Bounded := by
  unfold Bounded
  infer_instance

end ResourceBounds

namespace ResourceAnalyzer

/-- Operation cost table built by `ResourceAnalyzer::new`
(`costs: HashMap<String, u64>`). -/
def costs : String → Option Nat
  | "add" => some 1
  | "sub" => some 1
  | "mul" => some 2
  | "div" => some 10
  | "mod" => some 10
  | "array-access" => some 1
  | "gpio" => some 100
  | "uart" => some 200
  | "sensor" => some 500
  | "network" => some 1000
  | "sleep" => some 0
  | _ => none

/-- Two's-complement cast of an `i64` value to `u64` (`*ms as u64` in
the `SleepMs` arm of `ResourceAnalyzer::analyze`). -/
def i64_as_u64 (n : Int) : Nat := (n % (2 : Int) ^ 64).toNat

/-- `ResourceAnalyzer::eval_const_diff`: the constant iteration count of
a loop with the given bound expressions.  The source subtracts two `i64`
values and casts to `u64`; for `e ≥ s` the wrapping subtraction followed
by the cast yields the exact difference, modelled here directly. -/
def eval_const_diff (start stop : Expr) : Option Nat :=
  match start, stop with
  | .int s, .int e => if s ≤ e then some (e - s).toNat else some 0
  | _, _ => none

mutual
/-- `ResourceAnalyzer::analyze`: worst-case resource bounds of an
expression. -/
def analyze : Expr → ResourceBounds
  | .int _ => { ResourceBounds.new with time_ms := 1 }
  | .float _ => { ResourceBounds.new with time_ms := 1 }
  | .bool _ => { ResourceBounds.new with time_ms := 1 }
  | .string _ => { ResourceBounds.new with time_ms := 1 }
  | .ident _ => { ResourceBounds.new with time_ms := 1 }
  | .boundedFor _ start stop body =>
      (analyzeList ResourceBounds.new body).multiply
        ((eval_const_diff start stop).getD 100)
  | .letE bindings body =>
      analyzeList (analyzeBindings ResourceBounds.new bindings) body
  | .ifE condition then_branch else_branch =>
      ((analyze condition).max (analyze then_branch)).max (analyze else_branch)
  | .functionCall func args =>
      let bounds := analyzeList { ResourceBounds.new with time_ms := 10 } args
      match func with
      | .ident name =>
          match costs name with
          | some cost => { bounds with time_ms := (bounds.time_ms + cost) % 2 ^ 64 }
          | none => bounds
      | _ => bounds
  | .gpioSet _ _ => { ResourceBounds.new with time_ms := (costs "gpio").getD 100 }
  | .gpioGet _ => { ResourceBounds.new with time_ms := (costs "gpio").getD 100 }
  | .sensorRead _ => { ResourceBounds.new with time_ms := (costs "sensor").getD 500 }
  | .networkSend _ _ =>
      { ResourceBounds.new with
          time_ms := (costs "network").getD 1000, network_bytes := 256 }
  | .sleepMs ms_expr =>
      match ms_expr with
      | .int ms => { ResourceBounds.new with time_ms := i64_as_u64 ms }
      | _ => { ResourceBounds.new with time_ms := 1000 }
  | .arrayGet array index =>
      let bounds := (analyze array).add (analyze index)
      { bounds with
          time_ms := (bounds.time_ms + (costs "array-access").getD 1) % 2 ^ 64 }
  | .arraySet array index value =>
      let bounds := ((analyze array).add (analyze index)).add (analyze value)
      { bounds with
          time_ms := (bounds.time_ms + (costs "array-access").getD 1) % 2 ^ 64 }
  | .arrayLiteral _ size =>
      { ResourceBounds.new with memory_bytes := size * 8 % 2 ^ 64 }
  | .withCapability _ body => analyzeList ResourceBounds.new body
  | .defunDeploy _ _ _ body => analyzeList ResourceBounds.new body
  | _ => ResourceBounds.new

/-- Left-to-right accumulation of `analyze` over a sequence (the
`for expr in body { bounds.add(...) }` loops of the source). -/
def analyzeList (acc : ResourceBounds) : ExprList → ResourceBounds
  | .nil => acc
  | .cons e es => analyzeList (acc.add (analyze e)) es

/-- Left-to-right accumulation of `analyze` over binding right-hand
sides (the `for (_, expr) in bindings` loop of the `Let` arm). -/
def analyzeBindings (acc : ResourceBounds) : Bindings → ResourceBounds
  | .nil => acc
  | .cons _ e bs => analyzeBindings (acc.add (analyze e)) bs
end

mutual
/-- Specification-side exact counterpart of `analyze`: identical
structure, but every `u64` addition and multiplication is computed
without wrapping.  `analyze` agrees with it wherever its result is
`Bounded` (`analyze_eq_exact`); the difference is the overflow
behaviour C3's amendment excludes. -/
def analyzeExact : Expr → ResourceBounds
  | .int _ => { ResourceBounds.new with time_ms := 1 }
  | .float _ => { ResourceBounds.new with time_ms := 1 }
  | .bool _ => { ResourceBounds.new with time_ms := 1 }
  | .string _ => { ResourceBounds.new with time_ms := 1 }
  | .ident _ => { ResourceBounds.new with time_ms := 1 }
  | .boundedFor _ start stop body =>
      (analyzeListExact ResourceBounds.new body).multiplyExact
        ((eval_const_diff start stop).getD 100)
  | .letE bindings body =>
      analyzeListExact (analyzeBindingsExact ResourceBounds.new bindings) body
  | .ifE condition then_branch else_branch =>
      ((analyzeExact condition).max (analyzeExact then_branch)).max
        (analyzeExact else_branch)
  | .functionCall func args =>
      let bounds := analyzeListExact { ResourceBounds.new with time_ms := 10 } args
      match func with
      | .ident name =>
          match costs name with
          | some cost => { bounds with time_ms := bounds.time_ms + cost }
          | none => bounds
      | _ => bounds
  | .gpioSet _ _ => { ResourceBounds.new with time_ms := (costs "gpio").getD 100 }
  | .gpioGet _ => { ResourceBounds.new with time_ms := (costs "gpio").getD 100 }
  | .sensorRead _ => { ResourceBounds.new with time_ms := (costs "sensor").getD 500 }
  | .networkSend _ _ =>
      { ResourceBounds.new with
          time_ms := (costs "network").getD 1000, network_bytes := 256 }
  | .sleepMs ms_expr =>
      match ms_expr with
      | .int ms => { ResourceBounds.new with time_ms := i64_as_u64 ms }
      | _ => { ResourceBounds.new with time_ms := 1000 }
  | .arrayGet array index =>
      let bounds := (analyzeExact array).addExact (analyzeExact index)
      { bounds with time_ms := bounds.time_ms + (costs "array-access").getD 1 }
  | .arraySet array index value =>
      let bounds :=
        ((analyzeExact array).addExact (analyzeExact index)).addExact
          (analyzeExact value)
      { bounds with time_ms := bounds.time_ms + (costs "array-access").getD 1 }
  | .arrayLiteral _ size =>
      { ResourceBounds.new with memory_bytes := size * 8 }
  | .withCapability _ body => analyzeListExact ResourceBounds.new body
  | .defunDeploy _ _ _ body => analyzeListExact ResourceBounds.new body
  | _ => ResourceBounds.new

/-- Exact accumulation over a sequence. -/
def analyzeListExact (acc : ResourceBounds) : ExprList → ResourceBounds
  | .nil => acc
  | .cons e es => analyzeListExact (acc.addExact (analyzeExact e)) es

/-- Exact accumulation over binding right-hand sides. -/
def analyzeBindingsExact (acc : ResourceBounds) : Bindings → ResourceBounds
  | .nil => acc
  | .cons _ e bs => analyzeBindingsExact (acc.addExact (analyzeExact e)) bs
end

end ResourceAnalyzer

/-- Boolean error test for `Except` results (`Result::is_err`). -/
def isError : Except ε α → Bool
  | .error _ => true
  | .ok _ => false

/-- `Expr::is_compile_only`, from `ast/expr.rs`. -/
def Expr.is_compile_only : Expr → Bool
  | .defunCompile _ _ _ _ => true
  | .macroForm _ _ _ => true
  | .evalCompile _ => true
  | .includeFile _ => true
  | .forLoop _ _ _ => true
  | .whileLoop _ _ => true
  | _ => false

mutual
/-- `Expr::phase`, from `ast/expr.rs`. -/
def Expr.phase : Expr → Phase
  | .defunCompile _ _ _ _ => .Compile
  | .macroForm _ _ _ => .Compile
  | .evalCompile _ => .Compile
  | .includeFile _ => .Compile
  | .forLoop _ _ _ => .Compile
  | .whileLoop _ _ => .Compile
  | .defunDeploy _ _ _ body =>
      if ExprList.anyCompile body then .Mixed else .Deploy
  | .int _ => .Deploy
  | .float _ => .Deploy
  | .bool _ => .Deploy
  | .string _ => .Deploy
  | .ident _ => .Deploy
  | .boundedFor _ _ _ body =>
      if ExprList.anyCompile body then .Mixed else .Deploy
  | .letE _ body =>
      if ExprList.anyCompile body then .Compile
      else if ExprList.anyMixed body then .Mixed
      else .Deploy
  | .ifE condition then_branch else_branch =>
      if condition.phase = .Mixed ∨ then_branch.phase = .Mixed
          ∨ else_branch.phase = .Mixed then .Mixed
      else if condition.phase = .Compile ∨ then_branch.phase = .Compile
          ∨ else_branch.phase = .Compile then .Compile
      else .Deploy
  | .functionCall func args => ExprList.argsPhase func.phase args
  | _ => .Deploy

/-- Whether some element of a sequence has phase `Compile` (the
`phases.contains(&Phase::Compile)` checks of `Expr::phase`). -/
def ExprList.anyCompile : ExprList → Bool
  | .nil => false
  | .cons e es => e.phase = .Compile || ExprList.anyCompile es

/-- Whether some element of a sequence has phase `Mixed` (the
`phases.contains(&Phase::Mixed)` check of the `Let` arm). -/
def ExprList.anyMixed : ExprList → Bool
  | .nil => false
  | .cons e es => e.phase = .Mixed || ExprList.anyMixed es

/-- The argument fold of the `FunctionCall` arm of `Expr::phase`: a
`Mixed` argument short-circuits, a `Compile` argument upgrades the
accumulated phase. -/
def ExprList.argsPhase (p : Phase) : ExprList → Phase
  | .nil => p
  | .cons e es =>
      match e.phase with
      | .Mixed => .Mixed
      | .Compile => ExprList.argsPhase .Compile es
      | .Deploy => ExprList.argsPhase p es
end

/-- Phase errors, from `phases/separator.rs` (`PhaseError`). -/
inductive PhaseError where
  | CompileInDeploy (context : String)
  | MixedPhase
  | RecursionInDeploy
deriving DecidableEq, Repr

namespace PhaseSeparator

mutual
/-- `PhaseSeparator::analyze`, from `phases/separator.rs`: determine an
expression's phase, failing on compile-only constructs found as direct
elements of a `DefunDeploy`, `BoundedFor` or `WithCapability` body. -/
def analyze : Expr → Except PhaseError Phase
  | .defunDeploy name _ _ body => do
      checkBody ("in function " ++ name) body
      pure .Deploy
  | .defunCompile _ _ _ _ => pure .Compile
  | .macroForm _ _ _ => pure .Compile
  | .evalCompile _ => pure .Compile
  | .includeFile _ => pure .Compile
  | .forLoop _ _ _ => pure .Compile
  | .whileLoop _ _ => pure .Compile
  | .boundedFor _ _ _ body => do
      checkBody "in bounded-for loop" body
      pure .Deploy
  | .withCapability _ body => do
      checkBody "in with-capability block" body
      pure .Deploy
  | .letE bindings body => do
      analyzeBindings bindings
      analyzeSeq body
      if ExprList.anyCompile body then pure .Compile else pure .Deploy
  | .ifE condition then_branch else_branch => do
      _ ← analyze condition
      _ ← analyze then_branch
      _ ← analyze else_branch
      pure .Deploy
  | .functionCall func args => do
      _ ← analyze func
      analyzeSeq args
      pure .Deploy
  | .int _ => pure .Deploy
  | .float _ => pure .Deploy
  | .bool _ => pure .Deploy
  | .string _ => pure .Deploy
  | .ident _ => pure .Deploy
  | _ => pure .Deploy

/-- The body loops of the `DefunDeploy`, `BoundedFor` and
`WithCapability` arms of `PhaseSeparator::analyze`: reject a
compile-only direct element with the given context, otherwise recurse. -/
def checkBody (context : String) : ExprList → Except PhaseError Unit
  | .nil => pure ()
  | .cons e es =>
      if e.is_compile_only then .error (.CompileInDeploy context)
      else do
        _ ← analyze e
        checkBody context es

/-- Recursive analysis of each element of a sequence, discarding the
resulting phases (the `Let` body and `FunctionCall` argument loops). -/
def analyzeSeq : ExprList → Except PhaseError Unit
  | .nil => pure ()
  | .cons e es => do
      _ ← analyze e
      analyzeSeq es

/-- Recursive analysis of binding right-hand sides (the
`for (_, expr) in bindings` loop of the `Let` arm). -/
def analyzeBindings : Bindings → Except PhaseError Unit
  | .nil => pure ()
  | .cons _ e bs => do
      _ ← analyze e
      analyzeBindings bs
end

/-- `PhaseSeparator::validate_deploy_phase`: analyze every top-level
`DefunDeploy`, propagating the first failure. -/
def validate_deploy_phase : ExprList → Except PhaseError Unit
  | .nil => pure ()
  | .cons e es =>
      match e with
      | .defunDeploy name params ret body => do
          _ ← analyze (.defunDeploy name params ret body)
          validate_deploy_phase es
      | _ => validate_deploy_phase es

mutual
/-- Characterization (not source code): `detectsCompile e` holds exactly
when `PhaseSeparator::analyze e` returns an error, i.e. when the
traversal finds a compile-only construct as a direct element of a
`DefunDeploy`, `BoundedFor` or `WithCapability` body, descending through
those bodies and through `Let` bindings/bodies, `If` children and
`FunctionCall` func/args. -/
def detectsCompile : Expr → Bool
  | .defunDeploy _ _ _ body => bodyDetects body
  | .boundedFor _ _ _ body => bodyDetects body
  | .withCapability _ body => bodyDetects body
  | .letE bindings body => bindingsDetect bindings || seqDetects body
  | .ifE condition then_branch else_branch =>
      detectsCompile condition || detectsCompile then_branch
        || detectsCompile else_branch
  | .functionCall func args => detectsCompile func || seqDetects args
  | _ => false

/-- Body sequences reject compile-only direct elements and recurse. -/
def bodyDetects : ExprList → Bool
  | .nil => false
  | .cons e es => e.is_compile_only || detectsCompile e || bodyDetects es

/-- Detection within a plainly recursed sequence. -/
def seqDetects : ExprList → Bool
  | .nil => false
  | .cons e es => detectsCompile e || seqDetects es

/-- Detection within binding right-hand sides. -/
def bindingsDetect : Bindings → Bool
  | .nil => false
  | .cons _ e bs => detectsCompile e || bindingsDetect bs
end

mutual
/-- Specification-side predicate, following the claim's words: a
compile-only AST node is reachable from `e`, descending through every
sub-expression of every construct. -/
def reachesCompileOnly : Expr → Bool
  | .defunDeploy _ _ _ body => seqReaches body
  | .boundedFor _ start stop body =>
      reachesCompileOnly start || reachesCompileOnly stop || seqReaches body
  | .withCapability capability body =>
      reachesCompileOnly capability || seqReaches body
  | .defunCompile _ _ _ _ => true
  | .macroForm _ _ _ => true
  | .evalCompile _ => true
  | .includeFile _ => true
  | .forLoop _ _ _ => true
  | .whileLoop _ _ => true
  | .letE bindings body => bindingsReach bindings || seqReaches body
  | .set _ value => reachesCompileOnly value
  | .ifE condition then_branch else_branch =>
      reachesCompileOnly condition || reachesCompileOnly then_branch
        || reachesCompileOnly else_branch
  | .functionCall func args => reachesCompileOnly func || seqReaches args
  | .arrayGet array index => reachesCompileOnly array || reachesCompileOnly index
  | .arraySet array index value =>
      reachesCompileOnly array || reachesCompileOnly index
        || reachesCompileOnly value
  | .arrayLength e => reachesCompileOnly e
  | .gpioSet device value => reachesCompileOnly device || reachesCompileOnly value
  | .gpioGet device => reachesCompileOnly device
  | .uartSend device data => reachesCompileOnly device || reachesCompileOnly data
  | .uartRecv device => reachesCompileOnly device
  | .sensorRead device => reachesCompileOnly device
  | .networkSend device data =>
      reachesCompileOnly device || reachesCompileOnly data
  | .networkRecv device => reachesCompileOnly device
  | .sleepMs ms => reachesCompileOnly ms
  | .program _ budget forms => reachesCompileOnly budget || seqReaches forms
  | _ => false

/-- Reachability of a compile-only node from some element of a
sequence. -/
def seqReaches : ExprList → Bool
  | .nil => false
  | .cons e es => e.is_compile_only || reachesCompileOnly e || seqReaches es

/-- Reachability of a compile-only node from some binding right-hand
side. -/
def bindingsReach : Bindings → Bool
  | .nil => false
  | .cons _ e bs => e.is_compile_only || reachesCompileOnly e || bindingsReach bs
end

end PhaseSeparator

/-- Deploy call graphs, from `analyzer/call_graph.rs` (`CallGraph`).
The petgraph `DiGraph<String, ()>` with its `node_map` is modelled as
the list of node names in insertion order together with the list of
edges (as ordered name pairs) in insertion order. -/
structure CallGraph where
  nodes : List String
  edges : List (String × String)
deriving DecidableEq, Repr

namespace CallGraph

/-- `CallGraph::new`: the empty graph. -/
def new : CallGraph := ⟨[], []⟩

/-- `CallGraph::add_function`: insert a node unless already present. -/
def add_function (g : CallGraph) (name : String) : CallGraph :=
  if name ∈ g.nodes then g else { g with nodes := g.nodes ++ [name] }

/-- `CallGraph::add_call`: ensure the callee node exists, then record an
edge when both endpoints are present. -/
def add_call (g : CallGraph) (caller callee : String) : CallGraph :=
  let g' := g.add_function callee
  if caller ∈ g'.nodes ∧ callee ∈ g'.nodes then
    { g' with edges := g'.edges ++ [(caller, callee)] }
  else g'

mutual
/-- `CallGraph::collect_calls`, from `analyzer/call_graph.rs`: the
called identifiers (in push order) of an expression.  Only
`FunctionCall`, `BoundedFor`, `Let`, `If` and `WithCapability` are
descended into; other variants contribute no calls. -/
def collect_calls : Expr → List String
  | .functionCall func args =>
      (match func with
        | .ident name => [name]
        | _ => []) ++ collectList args
  | .boundedFor _ _ _ body => collectList body
  | .letE bindings body => collectBindings bindings ++ collectList body
  | .ifE condition then_branch else_branch =>
      collect_calls condition ++ collect_calls then_branch
        ++ collect_calls else_branch
  | .withCapability _ body => collectList body
  | _ => []

/-- Collection over a sequence of expressions. -/
def collectList : ExprList → List String
  | .nil => []
  | .cons e es => collect_calls e ++ collectList es

/-- Collection over binding right-hand sides. -/
def collectBindings : Bindings → List String
  | .nil => []
  | .cons _ e bs => collect_calls e ++ collectBindings bs
end

/-- `CallGraph::extract_function_calls`. -/
def extract_function_calls (body : ExprList) : List String := collectList body

/-- One step of the first pass of `CallGraph::build`: add a node for a
top-level `DefunDeploy`. -/
def addFunctionStep (g : CallGraph) (e : Expr) : CallGraph :=
  match e with
  | .defunDeploy name _ _ _ => g.add_function name
  | _ => g

/-- One step of the second pass of `CallGraph::build`: add edges for
every call site of a top-level `DefunDeploy`. -/
def addCallsStep (g : CallGraph) (e : Expr) : CallGraph :=
  match e with
  | .defunDeploy name _ _ body =>
      (extract_function_calls body).foldl (fun g' callee => g'.add_call name callee) g
  | _ => g

/-- `CallGraph::build`: two passes over the top-level expressions. -/
def build (exprs : ExprList) : CallGraph :=
  exprs.toList.foldl addCallsStep (exprs.toList.foldl addFunctionStep new)

/-- `CallGraph::function_count`. -/
def function_count (g : CallGraph) : Nat := g.nodes.length

/-- Whether `v` has no incoming edge from a node still in `rem`. -/
def noIncoming (edges : List (String × String)) (rem : List String)
    (v : String) : Bool :=
  edges.all fun e => !(e.2 == v && rem.contains e.1)

/-- Kahn's algorithm on the remaining nodes: repeatedly emit the first
remaining node with no incoming edge from the remaining set.  `fuel`
bounds the recursion; `rem.length` suffices. -/
def kahn (edges : List (String × String)) : Nat → List String → Option (List String)
  | _, [] => some []
  | 0, _ :: _ => none
  | fuel + 1, v :: rest =>
      match (v :: rest).find? (noIncoming edges (v :: rest)) with
      | none => none
      | some w => ((v :: rest).erase w |> kahn edges fuel).map (w :: ·)

/-- `CallGraph::has_cycles`.  The source delegates to petgraph's
`is_cyclic_directed`, an external library function whose documented
contract is to return `true` exactly when the graph contains a directed
cycle.  Modelled here as failure of Kahn's algorithm; the theorem
`hasCycles_iff_hasCycle` below proves this model equivalent to the
existence of a directed cycle. -/
def has_cycles (g : CallGraph) : Bool :=
  (kahn g.edges g.nodes.length g.nodes).isNone

/-- `CallGraph::topological_order`.  The source returns `None` when
`has_cycles()` holds and otherwise delegates to petgraph's `toposort`,
whose documented contract is to return some valid topological order of
the nodes; modelled by Kahn's algorithm. -/
def topological_order (g : CallGraph) : Option (List String) :=
  if g.has_cycles then none
  else kahn g.edges g.nodes.length g.nodes

/-- One directed edge step of a call graph. -/
def Step (g : CallGraph) (u v : String) : Prop := (u, v) ∈ g.edges

/-- Existence of a directed cycle. -/
def HasCycle (g : CallGraph) : Prop := ∃ v, Relation.TransGen (Step g) v v

/-- Well-formedness: every edge endpoint is a node.  `build` always
produces well-formed graphs (`build_wf`). -/
def WF (g : CallGraph) : Prop :=
  ∀ p ∈ g.edges, p.1 ∈ g.nodes ∧ p.2 ∈ g.nodes

end CallGraph

/-- Termination errors, from `analyzer/termination.rs`
(`TerminationError`). -/
inductive TerminationError where
  | Recursion
  | UnboundedLoop (kind : String)
  | UnknownBounds (context : String)
  | InfiniteResources
deriving DecidableEq, Repr

/-- The termination checker, from `analyzer/termination.rs`; it holds
the call graph built from the program by `TerminationChecker::new`. -/
structure TerminationChecker where
  call_graph : CallGraph

namespace TerminationChecker

/-- `TerminationChecker::new`. -/
def new (exprs : ExprList) : TerminationChecker := ⟨CallGraph.build exprs⟩

/-- `TerminationChecker::are_bounds_finite` (its `&self` receiver is
unused): both bounds must be integer literals. -/
def are_bounds_finite (start stop : Expr) : Bool :=
  (match start with | .int _ => true | _ => false)
    && (match stop with | .int _ => true | _ => false)

mutual
/-- `TerminationChecker::check_loops`: recursively reject `While` and
`For` nodes and `BoundedFor` nodes with non-literal bounds. -/
def check_loops : Expr → Except TerminationError Unit
  | .whileLoop _ _ => .error (.UnboundedLoop "while loop")
  | .forLoop _ _ _ => .error (.UnboundedLoop "for loop")
  | .boundedFor var start stop body =>
      if !are_bounds_finite start stop then
        .error (.UnknownBounds ("bounded-for " ++ var))
      else checkLoopsList body
  | .defunDeploy _ _ _ body => checkLoopsList body
  | .letE bindings body => do
      checkLoopsBindings bindings
      checkLoopsList body
  | .ifE condition then_branch else_branch => do
      check_loops condition
      check_loops then_branch
      check_loops else_branch
  | .withCapability _ body => checkLoopsList body
  | .functionCall func args => do
      check_loops func
      checkLoopsList args
  | _ => pure ()

/-- The body loops of `check_loops` over a sequence. -/
def checkLoopsList : ExprList → Except TerminationError Unit
  | .nil => pure ()
  | .cons e es => do
      check_loops e
      checkLoopsList es

/-- The binding loop of the `Let` arm of `check_loops`. -/
def checkLoopsBindings : Bindings → Except TerminationError Unit
  | .nil => pure ()
  | .cons _ e bs => do
      check_loops e
      checkLoopsBindings bs
end

/-- `TerminationChecker::check_terminates`: recursion check via the
stored call graph, then the loop checks over every top-level
expression. -/
def check_terminates (tc : TerminationChecker) (exprs : ExprList) :
    Except TerminationError Unit :=
  if tc.call_graph.has_cycles then .error .Recursion
  else checkLoopsList exprs

/-- `TerminationChecker::loop_ranking_function` (its `&self` receiver is
unused): the iteration count for literal bounds, `None` otherwise.  As
in `eval_const_diff`, the `i64` subtraction followed by the `u64` cast
computes the exact difference for `e ≥ s`. -/
def loop_ranking_function (start stop : Expr) : Option Nat :=
  match start, stop with
  | .int s, .int e => if s ≤ e then some (e - s).toNat else some 0
  | _, _ => none

end TerminationChecker

/-- Componentwise order on resource bounds, the propositional form of
`fits_within`. -/
def ResourceBounds.le (a b : ResourceBounds) : Prop :=
  a.time_ms ≤ b.time_ms ∧ a.memory_bytes ≤ b.memory_bytes
    ∧ a.network_bytes ≤ b.network_bytes ∧ a.storage_bytes ≤ b.storage_bytes

/-- The iteration factor a `BoundedFor` is scaled by: the constant
difference of its bounds, or the heuristic `100`. -/
def ResourceAnalyzer.iterFactor (start stop : Expr) : Nat :=
  (ResourceAnalyzer.eval_const_diff start stop).getD 100

/-- Direct sub-expression positions whose analysis is accumulated into
the parent's resource bounds by `ResourceAnalyzer::analyze`: `Let`
bindings and body, all three `If` children, `FunctionCall` arguments,
`WithCapability` and `DefunDeploy` bodies, `ArrayGet`/`ArraySet`
children, and `BoundedFor` body elements when the iteration factor is
at least `1`. -/
inductive AnalyzedPos : Expr → Expr → Prop where
  | letBinding {n e bs body} : (n, e) ∈ Bindings.toList bs →
      AnalyzedPos e (.letE bs body)
  | letBody {e bs body} : e ∈ ExprList.toList body →
      AnalyzedPos e (.letE bs body)
  | ifCond {c t f} : AnalyzedPos c (.ifE c t f)
  | ifThen {c t f} : AnalyzedPos t (.ifE c t f)
  | ifElse {c t f} : AnalyzedPos f (.ifE c t f)
  | callArg {e func args} : e ∈ ExprList.toList args →
      AnalyzedPos e (.functionCall func args)
  | withCap {e c body} : e ∈ ExprList.toList body →
      AnalyzedPos e (.withCapability c body)
  | defun {e n p r body} : e ∈ ExprList.toList body →
      AnalyzedPos e (.defunDeploy n p r body)
  | arrGetArr {a i} : AnalyzedPos a (.arrayGet a i)
  | arrGetIdx {a i} : AnalyzedPos i (.arrayGet a i)
  | arrSetArr {a i v} : AnalyzedPos a (.arraySet a i v)
  | arrSetIdx {a i v} : AnalyzedPos i (.arraySet a i v)
  | arrSetVal {a i v} : AnalyzedPos v (.arraySet a i v)
  | forBody {e var start stop body} : e ∈ ExprList.toList body →
      1 ≤ ResourceAnalyzer.iterFactor start stop →
      AnalyzedPos e (.boundedFor var start stop body)

/-- Error characterization of `validate_deploy_phase`: some top-level
`DefunDeploy` on which the separator's traversal detects a compile-only
construct. -/
def PhaseSeparator.anyDeployDetects : ExprList → Bool
  | .nil => false
  | .cons e es =>
      (match e with
        | .defunDeploy name params ret body =>
            PhaseSeparator.detectsCompile (.defunDeploy name params ret body)
        | _ => false) || PhaseSeparator.anyDeployDetects es

/-- Whether an expression is an unbounded loop node (`While` or
`For`). -/
def isLoopNode : Expr → Bool
  | .whileLoop _ _ => true
  | .forLoop _ _ _ => true
  | _ => false

/-- The `UnboundedLoop` payload `check_loops` reports for an unbounded
loop node. -/
def loopKind : Expr → String
  | .whileLoop _ _ => "while loop"
  | .forLoop _ _ _ => "for loop"
  | _ => ""

/-- Scenario S1 of the spec: the single deploy function
`(defun-deploy add (a b) : int32 (+ a b))`. -/
def addProgram : ExprList :=
  .cons (.defunDeploy "add" [⟨"a", none⟩, ⟨"b", none⟩] (some .int32)
    (.cons (.functionCall (.ident "+")
      (.cons (.ident "a") (.cons (.ident "b") .nil))) .nil)) .nil

/-- A deploy function whose body hides a `While` loop inside a `Let`
body: a compile-only node transitively under the deploy body. -/
def deployWithLetWhile : ExprList :=
  .cons (.defunDeploy "f" [] none
    (.cons (.letE .nil (.cons (.whileLoop (.bool true) .nil) .nil)) .nil)) .nil

/-- A top-level sequence whose first expression fails the loop check
with `UnknownBounds` before the `While` node is reached. -/
def unknownBoundsThenWhile : ExprList :=
  .cons (.boundedFor "i" (.ident "n") (.int 10) .nil)
    (.cons (.whileLoop (.bool true) .nil) .nil)

/-- Scenario from the source tests: `main` calls `helper`. -/
def mainHelperProgram : ExprList :=
  .cons (.defunDeploy "main" [] none
      (.cons (.functionCall (.ident "helper") .nil) .nil))
    (.cons (.defunDeploy "helper" [] none (.cons (.int 42) .nil)) .nil)

/-! Theorems. -/

/-- C8: `ResourceBounds.add` is associative and commutative, `max` is
idempotent, and `multiply` distributes over `add` for every scalar
factor. -/
theorem C8_bounds_algebra :
    (∀ a b c : ResourceBounds, (a.add b).add c = a.add (b.add c))
    ∧ (∀ a b : ResourceBounds, a.add b = b.add a)
    ∧ (∀ a : ResourceBounds, a.max a = a)
    ∧ (∀ (a b : ResourceBounds) (k : Nat),
        (a.add b).multiply k = (a.multiply k).add (b.multiply k)) := by
  refine ⟨fun a b c => ?_, fun a b => ?_, fun a => ?_, fun a b k => ?_⟩
  · ext <;> simp only [ResourceBounds.add] <;> omega
  · ext <;> simp only [ResourceBounds.add] <;> omega
  · ext <;> simp only [ResourceBounds.max, Nat.max_self]
  · ext <;>
      (simp only [ResourceBounds.add, ResourceBounds.multiply, Nat.mod_mul_mod,
        Nat.add_mul]
       rw [Nat.add_mod])

/-- C2: the `If` arm of `ResourceAnalyzer::analyze` computes the
componentwise maximum of condition, then-branch and else-branch — not
`analyze(cond) + max(analyze(then), analyze(else))` as its own comment
and the spec state.  On the body `(if true (gpio-set 1 0)
(sensor-read 2))` it yields `time_ms = max(1, 100, 500) = 500`, not
`1 + max(100, 500) = 501`. -/
theorem C2_if_bounds_are_max_not_sum :
    (∀ c t f, ResourceAnalyzer.analyze (.ifE c t f)
        = ((ResourceAnalyzer.analyze c).max (ResourceAnalyzer.analyze t)).max
            (ResourceAnalyzer.analyze f))
    ∧ ResourceAnalyzer.analyze
        (.ifE (.bool true) (.gpioSet (.int 1) (.int 0)) (.sensorRead (.int 2)))
        = ⟨500, 0, 0, 0⟩
    ∧ (500 : Nat) ≠ 1 + Max.max 100 500 := by
  refine ⟨fun c t f => by simp [ResourceAnalyzer.analyze], by decide, by decide⟩

/-- C4: a `BoundedFor` with literal bounds `s, e` is analyzed as the
body sum multiplied by `max(0, e − s)` (here `Int.toNat (e − s)`), and
with any non-literal bound as the body sum multiplied by the heuristic
factor `100`. -/
theorem C4_bounded_for_multiplier :
    (∀ (var : String) (s e : Int) (body : ExprList),
        ResourceAnalyzer.analyze (.boundedFor var (.int s) (.int e) body)
          = (ResourceAnalyzer.analyzeList ResourceBounds.new body).multiply (e - s).toNat)
    ∧ (∀ (var : String) (start stop : Expr) (body : ExprList),
        ((∀ n, start ≠ .int n) ∨ (∀ n, stop ≠ .int n)) →
        ResourceAnalyzer.analyze (.boundedFor var start stop body)
          = (ResourceAnalyzer.analyzeList ResourceBounds.new body).multiply 100) := by
  constructor
  · intro var s e body
    simp only [ResourceAnalyzer.analyze, ResourceAnalyzer.eval_const_diff]
    rcases le_or_lt s e with h | h
    · simp [h]
    · have h0 : (e - s).toNat = 0 := Int.toNat_of_nonpos (by omega)
      simp [h0, not_le.mpr h]
  · intro var start stop body h
    have hnone : ResourceAnalyzer.eval_const_diff start stop = none := by
      unfold ResourceAnalyzer.eval_const_diff
      split
      · rename_i s e
        rcases h with h | h
        · exact absurd rfl (h s)
        · exact absurd rfl (h e)
      · rfl
    simp [ResourceAnalyzer.analyze, hnone]

/-- C4 witness: the literal case at bounds `0, 10` with body
`(sleep-ms 3)`, and the heuristic case at a non-literal bound. -/
theorem C4_bounded_for_multiplier_witness :
    ResourceAnalyzer.analyze
        (.boundedFor "i" (.int 0) (.int 10) (.cons (.sleepMs (.int 3)) .nil))
      = (ResourceAnalyzer.analyzeList ResourceBounds.new
          (.cons (.sleepMs (.int 3)) .nil)).multiply ((10 : Int) - 0).toNat
    ∧ ResourceAnalyzer.analyze
        (.boundedFor "i" (.int 0) (.ident "n") (.cons (.sleepMs (.int 3)) .nil))
      = (ResourceAnalyzer.analyzeList ResourceBounds.new
          (.cons (.sleepMs (.int 3)) .nil)).multiply 100 :=
  ⟨C4_bounded_for_multiplier.1 "i" 0 10 _,
   C4_bounded_for_multiplier.2 "i" (.int 0) (.ident "n") _
     (Or.inr fun n h => by cases h)⟩

/-- C7: `loop_ranking_function` returns `max(0, e − s)` exactly on a
pair of integer literals and `None` otherwise. -/
theorem C7_loop_ranking_function :
    (∀ s e : Int, TerminationChecker.loop_ranking_function (.int s) (.int e)
        = some (Max.max 0 (e - s)).toNat)
    ∧ (∀ a b : Expr, ((∀ n, a ≠ .int n) ∨ (∀ n, b ≠ .int n)) →
        TerminationChecker.loop_ranking_function a b = none) := by
  constructor
  · intro s e
    simp only [TerminationChecker.loop_ranking_function]
    rcases le_or_lt s e with h | h
    · simp only [if_pos h]
      congr 1
      omega
    · simp only [if_neg (not_le.mpr h)]
      congr 1
      omega
  · intro a b h
    unfold TerminationChecker.loop_ranking_function
    split
    · rename_i s e
      rcases h with h | h
      · exact absurd rfl (h s)
      · exact absurd rfl (h e)
    · rfl

/-- C7 witness: literal bounds `2, 5` give `some 3`; a non-literal
start gives `none`. -/
theorem C7_loop_ranking_function_witness :
    TerminationChecker.loop_ranking_function (.int 2) (.int 5)
      = some (Max.max 0 ((5 : Int) - 2)).toNat
    ∧ TerminationChecker.loop_ranking_function (.ident "n") (.int 5) = none :=
  ⟨C7_loop_ranking_function.1 2 5,
   C7_loop_ranking_function.2 (.ident "n") (.int 5)
     (Or.inl fun n h => by cases h)⟩

/-- C10: `SleepMs(Int(n))` is analyzed with `time_ms` equal to the
two's-complement cast of `n` to `u64`, i.e. `n mod 2^64`: the exact
value `n` for non-negative `n` in range, the astronomically large value
`2^64 + n ≥ 2^63` for negative `n` in `i64` range, and `1000` for any
non-literal argument. -/
theorem C10_sleep_negative_cast :
    (∀ n : Int, ResourceAnalyzer.analyze (.sleepMs (.int n))
        = ⟨(n % 2 ^ 64).toNat, 0, 0, 0⟩)
    ∧ (∀ n : Int, 0 ≤ n → n < 2 ^ 64 →
        ResourceAnalyzer.analyze (.sleepMs (.int n)) = ⟨n.toNat, 0, 0, 0⟩)
    ∧ (∀ n : Int, -(2 ^ 63) ≤ n → n < 0 →
        ResourceAnalyzer.analyze (.sleepMs (.int n)) = ⟨(2 ^ 64 + n).toNat, 0, 0, 0⟩
          ∧ 2 ^ 63 ≤ (2 ^ 64 + n).toNat)
    ∧ (∀ ms : Expr, (∀ n, ms ≠ .int n) →
        ResourceAnalyzer.analyze (.sleepMs ms) = ⟨1000, 0, 0, 0⟩) := by
  have hbase : ∀ n : Int, ResourceAnalyzer.analyze (.sleepMs (.int n))
      = ⟨(n % 2 ^ 64).toNat, 0, 0, 0⟩ := by
    intro n
    simp [ResourceAnalyzer.analyze, ResourceAnalyzer.i64_as_u64, ResourceBounds.new]
  refine ⟨hbase, fun n h0 hlt => ?_, fun n hlo hneg => ?_, fun ms h => ?_⟩
  · rw [hbase]
    congr 1
    omega
  · refine ⟨?_, by omega⟩
    rw [hbase]
    congr 1
    omega
  · cases ms <;>
      first
        | exact absurd rfl (h _)
        | simp [ResourceAnalyzer.analyze, ResourceBounds.new]

/-- Reflexivity of the componentwise order. -/
theorem RB_le_refl (a : ResourceBounds) : a.le a := by
  simp [ResourceBounds.le]

/-- Transitivity of the componentwise order. -/
theorem RB_le_trans {a b c : ResourceBounds} (h₁ : a.le b) (h₂ : b.le c) : a.le c := by
  simp only [ResourceBounds.le] at *
  omega

/-- `fits_within` decides the componentwise order. -/
theorem fits_within_iff_le (a b : ResourceBounds) :
    a.fits_within b = true ↔ a.le b := by
  simp [ResourceBounds.fits_within, ResourceBounds.le, and_assoc]

/-- The componentwise order is downward closed under `Bounded`. -/
theorem bounded_of_le {a b : ResourceBounds} (h : a.le b) (hb : b.Bounded) :
    a.Bounded := by
  simp only [ResourceBounds.le, ResourceBounds.Bounded] at *
  omega

/-- The left summand is below an exact sum. -/
theorem RB_le_addExact_left (a b : ResourceBounds) : a.le (a.addExact b) := by
  simp only [ResourceBounds.le, ResourceBounds.addExact]
  omega

/-- The right summand is below an exact sum. -/
theorem RB_le_addExact_right (a b : ResourceBounds) : b.le (a.addExact b) := by
  simp only [ResourceBounds.le, ResourceBounds.addExact]
  omega

/-- Bounds are below any upward time adjustment of themselves. -/
theorem RB_le_add_time (b : ResourceBounds) (c : Nat) :
    b.le { b with time_ms := b.time_ms + c } := by
  simp [ResourceBounds.le]

/-- The left operand is below a componentwise maximum. -/
theorem RB_le_max_left (a b : ResourceBounds) : a.le (a.max b) := by
  simp only [ResourceBounds.le, ResourceBounds.max]
  omega

/-- The right operand is below a componentwise maximum. -/
theorem RB_le_max_right (a b : ResourceBounds) : b.le (a.max b) := by
  simp only [ResourceBounds.le, ResourceBounds.max]
  omega

/-- Exact multiplication by a positive factor does not decrease
bounds. -/
theorem RB_le_multiplyExact (a : ResourceBounds) {k : Nat} (hk : 1 ≤ k) :
    a.le (a.multiplyExact k) := by
  simp only [ResourceBounds.le, ResourceBounds.multiplyExact]
  refine ⟨?_, ?_, ?_, ?_⟩ <;> calc
    _ = _ * 1 := (Nat.mul_one _).symm
    _ ≤ _ * k := Nat.mul_le_mul_left _ hk

/-- Associativity of the exact sum. -/
theorem RB_addExact_assoc (a b c : ResourceBounds) :
    (a.addExact b).addExact c = a.addExact (b.addExact c) := by
  ext <;> simp [ResourceBounds.addExact, Nat.add_assoc]

/-- `new` is a left identity for the exact sum. -/
theorem RB_addExact_new_left (a : ResourceBounds) :
    ResourceBounds.new.addExact a = a := by
  ext <;> simp [ResourceBounds.addExact, ResourceBounds.new]

/-- `new` is a right identity for the exact sum. -/
theorem RB_addExact_new_right (a : ResourceBounds) :
    a.addExact ResourceBounds.new = a := by
  ext <;> simp [ResourceBounds.addExact, ResourceBounds.new]

/-- The wrapping sum agrees with the exact sum when the latter fits in
`u64`. -/
theorem add_eq_addExact {a b : ResourceBounds} (h : (a.addExact b).Bounded) :
    a.add b = a.addExact b := by
  obtain ⟨h1, h2, h3, h4⟩ := h
  simp only [ResourceBounds.addExact] at h1 h2 h3 h4
  ext <;> simp only [ResourceBounds.add, ResourceBounds.addExact] <;> omega

/-- The wrapping scaling agrees with the exact scaling when the latter
fits in `u64`. -/
theorem multiply_eq_multiplyExact {a : ResourceBounds} {k : Nat}
    (h : (a.multiplyExact k).Bounded) : a.multiply k = a.multiplyExact k := by
  obtain ⟨h1, h2, h3, h4⟩ := h
  simp only [ResourceBounds.multiplyExact] at h1 h2 h3 h4
  ext <;> simp only [ResourceBounds.multiply, ResourceBounds.multiplyExact] <;>
    exact Nat.mod_eq_of_lt (by assumption)

/-- Accumulator hoisting for `analyzeListExact`. -/
theorem analyzeListExact_hoist : ∀ (l : ExprList) (acc : ResourceBounds),
    ResourceAnalyzer.analyzeListExact acc l
      = acc.addExact (ResourceAnalyzer.analyzeListExact ResourceBounds.new l)
  | .nil, acc => by
      simp [ResourceAnalyzer.analyzeListExact, RB_addExact_new_right]
  | .cons e es, acc => by
      simp only [ResourceAnalyzer.analyzeListExact]
      rw [analyzeListExact_hoist es, analyzeListExact_hoist es
        (ResourceBounds.new.addExact (ResourceAnalyzer.analyzeExact e)),
        RB_addExact_new_left, RB_addExact_assoc]

/-- Accumulator hoisting for `analyzeBindingsExact`. -/
theorem analyzeBindingsExact_hoist : ∀ (bs : Bindings) (acc : ResourceBounds),
    ResourceAnalyzer.analyzeBindingsExact acc bs
      = acc.addExact (ResourceAnalyzer.analyzeBindingsExact ResourceBounds.new bs)
  | .nil, acc => by
      simp [ResourceAnalyzer.analyzeBindingsExact, RB_addExact_new_right]
  | .cons n e bs, acc => by
      simp only [ResourceAnalyzer.analyzeBindingsExact]
      rw [analyzeBindingsExact_hoist bs, analyzeBindingsExact_hoist bs
        (ResourceBounds.new.addExact (ResourceAnalyzer.analyzeExact e)),
        RB_addExact_new_left, RB_addExact_assoc]

/-- Unfolding of the exact sequence sum at a cons cell. -/
theorem analyzeListExact_new_cons (e : Expr) (es : ExprList) :
    ResourceAnalyzer.analyzeListExact ResourceBounds.new (.cons e es)
      = (ResourceAnalyzer.analyzeExact e).addExact
          (ResourceAnalyzer.analyzeListExact ResourceBounds.new es) := by
  simp only [ResourceAnalyzer.analyzeListExact]
  rw [analyzeListExact_hoist es, RB_addExact_new_left]

/-- Unfolding of the exact bindings sum at a cons cell. -/
theorem analyzeBindingsExact_new_cons (n : String) (e : Expr) (bs : Bindings) :
    ResourceAnalyzer.analyzeBindingsExact ResourceBounds.new (.cons n e bs)
      = (ResourceAnalyzer.analyzeExact e).addExact
          (ResourceAnalyzer.analyzeBindingsExact ResourceBounds.new bs) := by
  simp only [ResourceAnalyzer.analyzeBindingsExact]
  rw [analyzeBindingsExact_hoist bs, RB_addExact_new_left]

/-- Exact accumulation never drops below its accumulator. -/
theorem acc_le_analyzeListExact : ∀ (l : ExprList) (acc : ResourceBounds),
    acc.le (ResourceAnalyzer.analyzeListExact acc l)
  | .nil, acc => RB_le_refl acc
  | .cons e es, acc => by
      simp only [ResourceAnalyzer.analyzeListExact]
      exact RB_le_trans (RB_le_addExact_left _ _) (acc_le_analyzeListExact es _)

/-- Exact binding accumulation never drops below its accumulator. -/
theorem acc_le_analyzeBindingsExact : ∀ (bs : Bindings) (acc : ResourceBounds),
    acc.le (ResourceAnalyzer.analyzeBindingsExact acc bs)
  | .nil, acc => RB_le_refl acc
  | .cons n e bs, acc => by
      simp only [ResourceAnalyzer.analyzeBindingsExact]
      exact RB_le_trans (RB_le_addExact_left _ _) (acc_le_analyzeBindingsExact bs _)

/-- A member expression's exact bounds are below the exact sequence
sum. -/
theorem mem_le_analyzeListExact : ∀ (l : ExprList) (e : Expr),
    e ∈ l.toList →
    (ResourceAnalyzer.analyzeExact e).le
      (ResourceAnalyzer.analyzeListExact ResourceBounds.new l)
  | .nil, e, h => absurd h (by simp [ExprList.toList])
  | .cons e' es, e, h => by
      rw [analyzeListExact_new_cons]
      rcases List.mem_cons.mp (by simpa [ExprList.toList] using h) with rfl | h'
      · exact RB_le_addExact_left _ _
      · exact RB_le_trans (mem_le_analyzeListExact es e h') (RB_le_addExact_right _ _)

/-- A binding right-hand side's exact bounds are below the exact
bindings sum. -/
theorem mem_le_analyzeBindingsExact : ∀ (bs : Bindings) (n : String) (e : Expr),
    (n, e) ∈ bs.toList →
    (ResourceAnalyzer.analyzeExact e).le
      (ResourceAnalyzer.analyzeBindingsExact ResourceBounds.new bs)
  | .nil, n, e, h => absurd h (by simp [Bindings.toList])
  | .cons n' e' bs, n, e, h => by
      rw [analyzeBindingsExact_new_cons]
      rcases (by simpa [Bindings.toList] using h :
          (n = n' ∧ e = e') ∨ (n, e) ∈ bs.toList) with ⟨rfl, rfl⟩ | h'
      · exact RB_le_addExact_left _ _
      · exact RB_le_trans (mem_le_analyzeBindingsExact bs n e h') (RB_le_addExact_right _ _)

/-- The exact argument-sum bounds of a `FunctionCall` are below the
call's exact bounds, whatever the callee expression. -/
theorem fc_args_le (func : Expr) (args : ExprList) :
    (ResourceAnalyzer.analyzeListExact { ResourceBounds.new with time_ms := 10 } args).le
      (ResourceAnalyzer.analyzeExact (.functionCall func args)) := by
  cases func <;> simp only [ResourceAnalyzer.analyzeExact] <;>
    first
      | exact RB_le_refl _
      | (rename_i name
         rcases hc : ResourceAnalyzer.costs name with _ | c <;> simp only [hc]
         · exact RB_le_refl _
         · exact RB_le_add_time _ _)

/-- A direct analyzed sub-expression has exact bounds below its
parent's. -/
theorem analyzedPos_le {e p : Expr} (h : AnalyzedPos e p) :
    (ResourceAnalyzer.analyzeExact e).le (ResourceAnalyzer.analyzeExact p) := by
  cases h with
  | letBinding hmem =>
      simp only [ResourceAnalyzer.analyzeExact]
      rw [analyzeListExact_hoist]
      exact RB_le_trans (mem_le_analyzeBindingsExact _ _ _ hmem) (RB_le_addExact_left _ _)
  | letBody hmem =>
      simp only [ResourceAnalyzer.analyzeExact]
      rw [analyzeListExact_hoist]
      exact RB_le_trans (mem_le_analyzeListExact _ _ hmem) (RB_le_addExact_right _ _)
  | ifCond =>
      simp only [ResourceAnalyzer.analyzeExact]
      exact RB_le_trans (RB_le_max_left _ _) (RB_le_max_left _ _)
  | ifThen =>
      simp only [ResourceAnalyzer.analyzeExact]
      exact RB_le_trans (RB_le_max_right _ _) (RB_le_max_left _ _)
  | ifElse =>
      simp only [ResourceAnalyzer.analyzeExact]
      exact RB_le_max_right _ _
  | callArg hmem =>
      refine RB_le_trans ?_ (fc_args_le _ _)
      rw [analyzeListExact_hoist]
      exact RB_le_trans (mem_le_analyzeListExact _ _ hmem) (RB_le_addExact_right _ _)
  | withCap hmem =>
      simp only [ResourceAnalyzer.analyzeExact]
      exact mem_le_analyzeListExact _ _ hmem
  | defun hmem =>
      simp only [ResourceAnalyzer.analyzeExact]
      exact mem_le_analyzeListExact _ _ hmem
  | arrGetArr =>
      simp only [ResourceAnalyzer.analyzeExact]
      exact RB_le_trans (RB_le_addExact_left _ _) (RB_le_add_time _ _)
  | arrGetIdx =>
      simp only [ResourceAnalyzer.analyzeExact]
      exact RB_le_trans (RB_le_addExact_right _ _) (RB_le_add_time _ _)
  | arrSetArr =>
      simp only [ResourceAnalyzer.analyzeExact]
      exact RB_le_trans (RB_le_trans (RB_le_addExact_left _ _) (RB_le_addExact_left _ _))
        (RB_le_add_time _ _)
  | arrSetIdx =>
      simp only [ResourceAnalyzer.analyzeExact]
      exact RB_le_trans (RB_le_trans (RB_le_addExact_right _ _) (RB_le_addExact_left _ _))
        (RB_le_add_time _ _)
  | arrSetVal =>
      simp only [ResourceAnalyzer.analyzeExact]
      exact RB_le_trans (RB_le_addExact_right _ _) (RB_le_add_time _ _)
  | forBody hmem hk =>
      simp only [ResourceAnalyzer.analyzeExact]
      exact RB_le_trans (mem_le_analyzeListExact _ _ hmem)
        (RB_le_multiplyExact _ (by simpa [ResourceAnalyzer.iterFactor] using hk))

/-- Descent through analyzed positions is monotone for the exact
analyzer. -/
theorem rtg_analyzedPos_le {e p : Expr}
    (h : Relation.ReflTransGen AnalyzedPos e p) :
    (ResourceAnalyzer.analyzeExact e).le (ResourceAnalyzer.analyzeExact p) := by
  induction h with
  | refl => exact RB_le_refl _
  | tail _ hstep ih => exact RB_le_trans ih (analyzedPos_le hstep)

mutual
/-- Wherever the exact bounds fit in `u64`, the wrapping analyzer
computes them exactly. -/
theorem analyze_eq_exact : ∀ e : Expr,
    (ResourceAnalyzer.analyzeExact e).Bounded →
    ResourceAnalyzer.analyze e = ResourceAnalyzer.analyzeExact e
  | .int _, _ => rfl
  | .float _, _ => rfl
  | .bool _, _ => rfl
  | .string _, _ => rfl
  | .ident _, _ => rfl
  | .defunDeploy _ _ _ body, hb => by
      simp only [ResourceAnalyzer.analyze, ResourceAnalyzer.analyzeExact] at hb ⊢
      exact analyzeList_eq_exact body _ hb
  | .boundedFor _ start stop body, hb => by
      simp only [ResourceAnalyzer.analyze, ResourceAnalyzer.analyzeExact] at hb ⊢
      rcases Nat.eq_zero_or_pos ((ResourceAnalyzer.eval_const_diff start stop).getD 100)
        with hk | hk
      · rw [hk]
        ext <;> simp [ResourceBounds.multiply, ResourceBounds.multiplyExact]
      · have hbb := bounded_of_le (RB_le_multiplyExact _ hk) hb
        rw [analyzeList_eq_exact body _ hbb, multiply_eq_multiplyExact hb]
  | .withCapability _ body, hb => by
      simp only [ResourceAnalyzer.analyze, ResourceAnalyzer.analyzeExact] at hb ⊢
      exact analyzeList_eq_exact body _ hb
  | .defunCompile _ _ _ _, _ => rfl
  | .macroForm _ _ _, _ => rfl
  | .evalCompile _, _ => rfl
  | .includeFile _, _ => rfl
  | .forLoop _ _ _, _ => rfl
  | .whileLoop _ _, _ => rfl
  | .letE bindings body, hb => by
      simp only [ResourceAnalyzer.analyze, ResourceAnalyzer.analyzeExact] at hb ⊢
      have hb1 := bounded_of_le (acc_le_analyzeListExact body _) hb
      rw [analyzeBindings_eq_exact bindings _ hb1]
      exact analyzeList_eq_exact body _ hb
  | .set _ _, _ => rfl
  | .ifE c t f, hb => by
      simp only [ResourceAnalyzer.analyze, ResourceAnalyzer.analyzeExact] at hb ⊢
      have hbc := bounded_of_le (RB_le_trans (RB_le_max_left _ _) (RB_le_max_left _ _)) hb
      have hbt := bounded_of_le (RB_le_trans (RB_le_max_right _ _) (RB_le_max_left _ _)) hb
      have hbf := bounded_of_le (RB_le_max_right _ _) hb
      rw [analyze_eq_exact c hbc, analyze_eq_exact t hbt, analyze_eq_exact f hbf]
  | .functionCall func args, hb => by
      cases func <;>
        simp only [ResourceAnalyzer.analyze, ResourceAnalyzer.analyzeExact] at hb ⊢ <;>
        first
          | exact analyzeList_eq_exact args _ hb
          | (rename_i name
             rcases hc : ResourceAnalyzer.costs name with _ | c <;>
               simp only [hc] at hb ⊢
             · exact analyzeList_eq_exact args _ hb
             · have hbB := bounded_of_le (RB_le_add_time _ _) hb
               rw [analyzeList_eq_exact args _ hbB]
               obtain ⟨h1, -, -, -⟩ := hb
               congr 1
               exact Nat.mod_eq_of_lt h1)
  | .arrayLiteral _ size, hb => by
      simp only [ResourceAnalyzer.analyze, ResourceAnalyzer.analyzeExact] at hb ⊢
      obtain ⟨-, h2, -, -⟩ := hb
      congr 1
      exact Nat.mod_eq_of_lt h2
  | .arrayGet array index, hb => by
      simp only [ResourceAnalyzer.analyze, ResourceAnalyzer.analyzeExact] at hb ⊢
      have hbBE := bounded_of_le (RB_le_add_time _ _) hb
      have hba := bounded_of_le (RB_le_addExact_left _ _) hbBE
      have hbi := bounded_of_le (RB_le_addExact_right _ _) hbBE
      rw [analyze_eq_exact array hba, analyze_eq_exact index hbi, add_eq_addExact hbBE]
      obtain ⟨h1, -, -, -⟩ := hb
      congr 1
      exact Nat.mod_eq_of_lt h1
  | .arraySet array index value, hb => by
      simp only [ResourceAnalyzer.analyze, ResourceAnalyzer.analyzeExact] at hb ⊢
      have hbBE := bounded_of_le (RB_le_add_time _ _) hb
      have hbxy := bounded_of_le (RB_le_addExact_left _ _) hbBE
      have hba := bounded_of_le (RB_le_addExact_left _ _) hbxy
      have hbi := bounded_of_le (RB_le_addExact_right _ _) hbxy
      have hbv := bounded_of_le (RB_le_addExact_right _ _) hbBE
      rw [analyze_eq_exact array hba, analyze_eq_exact index hbi,
        analyze_eq_exact value hbv, add_eq_addExact hbxy, add_eq_addExact hbBE]
      obtain ⟨h1, -, -, -⟩ := hb
      congr 1
      exact Nat.mod_eq_of_lt h1
  | .arrayLength _, _ => rfl
  | .gpioSet _ _, _ => rfl
  | .gpioGet _, _ => rfl
  | .uartSend _ _, _ => rfl
  | .uartRecv _, _ => rfl
  | .sensorRead _, _ => rfl
  | .networkSend _ _, _ => rfl
  | .networkRecv _, _ => rfl
  | .sleepMs ms, _ => by cases ms <;> rfl
  | .timestamp, _ => rfl
  | .resourceBudget _, _ => rfl
  | .defCap _ _ _, _ => rfl
  | .program _ _ _, _ => rfl

/-- List version of `analyze_eq_exact`, generalized over the
accumulator. -/
theorem analyzeList_eq_exact : ∀ (l : ExprList) (acc : ResourceBounds),
    (ResourceAnalyzer.analyzeListExact acc l).Bounded →
    ResourceAnalyzer.analyzeList acc l = ResourceAnalyzer.analyzeListExact acc l
  | .nil, acc, _ => rfl
  | .cons e es, acc, hb => by
      simp only [ResourceAnalyzer.analyzeList, ResourceAnalyzer.analyzeListExact] at hb ⊢
      have hacc := bounded_of_le (acc_le_analyzeListExact es _) hb
      have hbe := bounded_of_le (RB_le_addExact_right _ _) hacc
      rw [analyze_eq_exact e hbe, add_eq_addExact hacc]
      exact analyzeList_eq_exact es _ hb

/-- Bindings version of `analyze_eq_exact`, generalized over the
accumulator. -/
theorem analyzeBindings_eq_exact : ∀ (bs : Bindings) (acc : ResourceBounds),
    (ResourceAnalyzer.analyzeBindingsExact acc bs).Bounded →
    ResourceAnalyzer.analyzeBindings acc bs
      = ResourceAnalyzer.analyzeBindingsExact acc bs
  | .nil, acc, _ => rfl
  | .cons n e bs, acc, hb => by
      simp only [ResourceAnalyzer.analyzeBindings,
        ResourceAnalyzer.analyzeBindingsExact] at hb ⊢
      have hacc := bounded_of_le (acc_le_analyzeBindingsExact bs _) hb
      have hbe := bounded_of_le (RB_le_addExact_right _ _) hacc
      rw [analyze_eq_exact e hbe, add_eq_addExact hacc]
      exact analyzeBindings_eq_exact bs _ hb
end

/-- C3 (amended): `analyze(e) ≤ analyze(p)` holds componentwise (as
`fits_within`) whenever `e` descends from `p` through analyzed
positions — `Let` bindings/bodies, all three `If` children (the code
takes the maximum of all three, so `If` needs no exception),
`FunctionCall` arguments, `WithCapability`/`DefunDeploy` bodies,
`ArrayGet`/`ArraySet` children, and `BoundedFor` bodies whose iteration
factor is at least `1` — provided the parent's exact bounds fit in
`u64`.  The claim's unrestricted statement fails three ways: a
`BoundedFor` with equal literal bounds multiplies by `0`
(`C3_monotonicity_counterexample`); children ignored by the cost rules
(`FunctionCall.func`, `Set`/IO/`SleepMs` operands) are not covered; and
when the parent's arithmetic overflows `u64`, wrapping breaks
monotonicity even on analyzed positions, as the second conjunct shows
at `(bounded-for i 0 2 (sleep-ms -1))`: the loop wraps to
`2^64 − 2`, below the body element's `2^64 − 1`. -/
theorem C3_monotonic_on_analyzed_positions :
    (∀ e p : Expr, Relation.ReflTransGen AnalyzedPos e p →
        (ResourceAnalyzer.analyzeExact p).Bounded →
        (ResourceAnalyzer.analyze e).fits_within (ResourceAnalyzer.analyze p) = true)
    ∧ (Relation.ReflTransGen AnalyzedPos (.sleepMs (.int (-1)))
          (.boundedFor "i" (.int 0) (.int 2) (.cons (.sleepMs (.int (-1))) .nil))
        ∧ (ResourceAnalyzer.analyze (.sleepMs (.int (-1)))).fits_within
            (ResourceAnalyzer.analyze
              (.boundedFor "i" (.int 0) (.int 2)
                (.cons (.sleepMs (.int (-1))) .nil))) = false) := by
  refine ⟨fun e p h hb => ?_, ?_, by decide⟩
  · have hle := rtg_analyzedPos_le h
    have hbe := bounded_of_le hle hb
    rw [fits_within_iff_le, analyze_eq_exact e hbe, analyze_eq_exact p hb]
    exact hle
  · exact Relation.ReflTransGen.single
      (AnalyzedPos.forBody (by simp [ExprList.toList]) (by decide))

/-- C3 counterexample: the body element `1` of a `BoundedFor` with
equal literal bounds `0, 0` has strictly larger bounds than the loop
itself (`time_ms` 1 against 0), refuting the claim's monotonicity for
`BoundedFor` parents with `start = end`. -/
theorem C3_monotonicity_counterexample :
    (Expr.int 1) ∈ ExprList.toList (.cons (.int 1) .nil)
    ∧ (ResourceAnalyzer.analyze (.int 1)).fits_within
        (ResourceAnalyzer.analyze
          (.boundedFor "i" (.int 0) (.int 0) (.cons (.int 1) .nil))) = false :=
  ⟨by simp [ExprList.toList], by decide⟩

/-- C3 witness: the then-branch of a small overflow-free `If` is
monotone. -/
theorem C3_monotonic_on_analyzed_positions_witness :
    (ResourceAnalyzer.analyze (.int 1)).fits_within
      (ResourceAnalyzer.analyze (.ifE (.bool true) (.int 1) (.int 2))) = true :=
  C3_monotonic_on_analyzed_positions.1 _ _
    (Relation.ReflTransGen.single AnalyzedPos.ifThen) (by decide)

/-- Errors pass through `isError`. -/
theorem isError_error (e : ε) : isError (Except.error e : Except ε α) = true := rfl

/-- Successes pass through `isError`. -/
theorem isError_ok (x : α) : isError (Except.ok x : Except ε α) = false := rfl

/-- Pure results are not errors. -/
@[simp]
theorem isError_pure (v : α) : isError (pure v : Except ε α) = false := rfl

/-- Error propagation through a value-discarding bind. -/
@[simp]
theorem isError_bind_k (a : Except ε α) (k : Except ε β) :
    isError (a >>= fun _ => k) = (isError a || isError k) := by
  cases a <;> rfl

namespace PhaseSeparator

mutual
/-- `PhaseSeparator::analyze` fails exactly when the detection predicate
`detectsCompile` holds. -/
theorem analyze_isError : ∀ e : Expr, isError (analyze e) = detectsCompile e
  | .int _ => rfl
  | .float _ => rfl
  | .bool _ => rfl
  | .string _ => rfl
  | .ident _ => rfl
  | .defunDeploy name _ _ body => by
      simp only [analyze, detectsCompile, isError_bind_k, isError_pure,
        Bool.or_false, checkBody_isError ("in function " ++ name) body]
  | .boundedFor _ _ _ body => by
      simp only [analyze, detectsCompile, isError_bind_k, isError_pure,
        Bool.or_false, checkBody_isError "in bounded-for loop" body]
  | .withCapability _ body => by
      simp only [analyze, detectsCompile, isError_bind_k, isError_pure,
        Bool.or_false, checkBody_isError "in with-capability block" body]
  | .defunCompile _ _ _ _ => rfl
  | .macroForm _ _ _ => rfl
  | .evalCompile _ => rfl
  | .includeFile _ => rfl
  | .forLoop _ _ _ => rfl
  | .whileLoop _ _ => rfl
  | .letE bindings body => by
      simp only [analyze, detectsCompile, isError_bind_k,
        analyzeBindings_isError bindings, analyzeSeq_isError body]
      cases hc : ExprList.anyCompile body <;> simp [hc]
  | .set _ _ => rfl
  | .ifE c t f => by
      simp only [analyze, detectsCompile, isError_bind_k, isError_pure,
        Bool.or_false, analyze_isError c, analyze_isError t, analyze_isError f,
        Bool.or_assoc]
  | .functionCall func args => by
      simp only [analyze, detectsCompile, isError_bind_k, isError_pure,
        Bool.or_false, analyze_isError func, analyzeSeq_isError args]
  | .arrayLiteral _ _ => rfl
  | .arrayGet _ _ => rfl
  | .arraySet _ _ _ => rfl
  | .arrayLength _ => rfl
  | .gpioSet _ _ => rfl
  | .gpioGet _ => rfl
  | .uartSend _ _ => rfl
  | .uartRecv _ => rfl
  | .sensorRead _ => rfl
  | .networkSend _ _ => rfl
  | .networkRecv _ => rfl
  | .sleepMs _ => rfl
  | .timestamp => rfl
  | .resourceBudget _ => rfl
  | .defCap _ _ _ => rfl
  | .program _ _ _ => rfl

/-- The body check fails exactly when `bodyDetects` holds. -/
theorem checkBody_isError : ∀ (ctx : String) (l : ExprList),
    isError (checkBody ctx l) = bodyDetects l
  | _, .nil => rfl
  | ctx, .cons e es => by
      cases hco : e.is_compile_only with
      | true => simp [checkBody, hco, bodyDetects, isError_error]
      | false =>
          simp [checkBody, hco, bodyDetects, isError_bind_k,
            analyze_isError e, checkBody_isError ctx es]

/-- Sequence analysis fails exactly when `seqDetects` holds. -/
theorem analyzeSeq_isError : ∀ l : ExprList, isError (analyzeSeq l) = seqDetects l
  | .nil => rfl
  | .cons e es => by
      simp only [analyzeSeq, seqDetects, isError_bind_k, analyze_isError e,
        analyzeSeq_isError es]

/-- Binding analysis fails exactly when `bindingsDetect` holds. -/
theorem analyzeBindings_isError : ∀ bs : Bindings,
    isError (analyzeBindings bs) = bindingsDetect bs
  | .nil => rfl
  | .cons _ e bs => by
      simp only [analyzeBindings, bindingsDetect, isError_bind_k,
        analyze_isError e, analyzeBindings_isError bs]
end

/-- `validate_deploy_phase` fails exactly when some top-level
`DefunDeploy` is detected. -/
theorem validate_isError : ∀ l : ExprList,
    isError (validate_deploy_phase l) = anyDeployDetects l
  | .nil => rfl
  | .cons e es => by
      cases e <;>
        simp only [validate_deploy_phase, anyDeployDetects, isError_bind_k,
          validate_isError es, analyze_isError, Bool.false_or]

mutual
/-- Detection implies full reachability of a compile-only node. -/
theorem detects_imp_reaches : ∀ e : Expr,
    detectsCompile e = true → reachesCompileOnly e = true
  | .defunDeploy _ _ _ body, h => by
      simp only [detectsCompile] at h
      simp only [reachesCompileOnly]
      exact bodyDetects_imp_reaches body h
  | .boundedFor _ _ _ body, h => by
      simp only [detectsCompile] at h
      simp only [reachesCompileOnly, Bool.or_eq_true]
      exact Or.inr (bodyDetects_imp_reaches body h)
  | .withCapability _ body, h => by
      simp only [detectsCompile] at h
      simp only [reachesCompileOnly, Bool.or_eq_true]
      exact Or.inr (bodyDetects_imp_reaches body h)
  | .letE bindings body, h => by
      simp only [detectsCompile, Bool.or_eq_true] at h
      simp only [reachesCompileOnly, Bool.or_eq_true]
      rcases h with h | h
      · exact Or.inl (bindingsDetect_imp_reaches bindings h)
      · exact Or.inr (seqDetects_imp_reaches body h)
  | .ifE c t f, h => by
      simp only [detectsCompile, Bool.or_eq_true] at h
      simp only [reachesCompileOnly, Bool.or_eq_true]
      rcases h with (h | h) | h
      · exact Or.inl (Or.inl (detects_imp_reaches c h))
      · exact Or.inl (Or.inr (detects_imp_reaches t h))
      · exact Or.inr (detects_imp_reaches f h)
  | .functionCall func args, h => by
      simp only [detectsCompile, Bool.or_eq_true] at h
      simp only [reachesCompileOnly, Bool.or_eq_true]
      rcases h with h | h
      · exact Or.inl (detects_imp_reaches func h)
      · exact Or.inr (seqDetects_imp_reaches args h)
  | .int _, h => by cases h
  | .float _, h => by cases h
  | .bool _, h => by cases h
  | .string _, h => by cases h
  | .ident _, h => by cases h
  | .defunCompile _ _ _ _, h => by cases h
  | .macroForm _ _ _, h => by cases h
  | .evalCompile _, h => by cases h
  | .includeFile _, h => by cases h
  | .forLoop _ _ _, h => by cases h
  | .whileLoop _ _, h => by cases h
  | .set _ _, h => by cases h
  | .arrayLiteral _ _, h => by cases h
  | .arrayGet _ _, h => by cases h
  | .arraySet _ _ _, h => by cases h
  | .arrayLength _, h => by cases h
  | .gpioSet _ _, h => by cases h
  | .gpioGet _, h => by cases h
  | .uartSend _ _, h => by cases h
  | .uartRecv _, h => by cases h
  | .sensorRead _, h => by cases h
  | .networkSend _ _, h => by cases h
  | .networkRecv _, h => by cases h
  | .sleepMs _, h => by cases h
  | .timestamp, h => by cases h
  | .resourceBudget _, h => by cases h
  | .defCap _ _ _, h => by cases h
  | .program _ _ _, h => by cases h

/-- Body detection implies sequence reachability. -/
theorem bodyDetects_imp_reaches : ∀ l : ExprList,
    bodyDetects l = true → seqReaches l = true
  | .cons e es, h => by
      simp only [bodyDetects, Bool.or_eq_true] at h
      simp only [seqReaches, Bool.or_eq_true]
      rcases h with (h | h) | h
      · exact Or.inl (Or.inl h)
      · exact Or.inl (Or.inr (detects_imp_reaches e h))
      · exact Or.inr (bodyDetects_imp_reaches es h)

/-- Plain sequence detection implies sequence reachability. -/
theorem seqDetects_imp_reaches : ∀ l : ExprList,
    seqDetects l = true → seqReaches l = true
  | .cons e es, h => by
      simp only [seqDetects, Bool.or_eq_true] at h
      simp only [seqReaches, Bool.or_eq_true]
      rcases h with h | h
      · exact Or.inl (Or.inr (detects_imp_reaches e h))
      · exact Or.inr (seqDetects_imp_reaches es h)

/-- Binding detection implies binding reachability. -/
theorem bindingsDetect_imp_reaches : ∀ bs : Bindings,
    bindingsDetect bs = true → bindingsReach bs = true
  | .cons _ e bs, h => by
      simp only [bindingsDetect, Bool.or_eq_true] at h
      simp only [bindingsReach, Bool.or_eq_true]
      rcases h with h | h
      · exact Or.inl (Or.inr (detects_imp_reaches e h))
      · exact Or.inr (bindingsDetect_imp_reaches bs h)
end

/-- Deploy bodies with no reachable compile-only node are never
detected. -/
theorem anyDeployDetects_eq_false : ∀ l : ExprList,
    (∀ name params ret body,
        Expr.defunDeploy name params ret body ∈ l.toList →
        seqReaches body = false) →
    anyDeployDetects l = false
  | .nil, _ => rfl
  | .cons e es, h => by
      have htail : anyDeployDetects es = false :=
        anyDeployDetects_eq_false es fun n p r b hb =>
          h n p r b (by simp [ExprList.toList]; exact Or.inr hb)
      cases e <;> simp only [anyDeployDetects, htail, Bool.or_false]
      rename_i name params ret body
      cases hd : detectsCompile (.defunDeploy name params ret body)
      · rfl
      · have hr : seqReaches body = true := by
          have := detects_imp_reaches _ hd
          simpa [reachesCompileOnly] using this
        have := h name params ret body (by simp [ExprList.toList])
        rw [this] at hr
        cases hr

end PhaseSeparator

/-- A non-erring `Except _ Unit` computation is exactly `ok ()`. -/
theorem eq_ok_of_isError_false {x : Except ε Unit} (h : isError x = false) :
    x = .ok () := by
  cases x with
  | error e => simp [isError] at h
  | ok u => cases u; rfl

/-- C1 (amended): `validate_deploy_phase` returns `Err` exactly when
some top-level `DefunDeploy` contains a compile-only node as a direct
element of a `DefunDeploy`/`BoundedFor`/`WithCapability` body sequence
reachable through `Let` bindings/bodies, `If` children,
`FunctionCall` func/args and those body sequences (`anyDeployDetects`);
compile-only nodes sitting directly inside a `Let`, `If` or
`FunctionCall` are not detected (`C1_nested_compile_counterexample`).
In particular it returns `Ok` whenever no compile-only node is
reachable at all under any top-level `DefunDeploy` body. -/
theorem C1_validate_deploy_phase_characterization :
    (∀ exprs : ExprList,
        isError (PhaseSeparator.validate_deploy_phase exprs)
          = PhaseSeparator.anyDeployDetects exprs)
    ∧ (∀ exprs : ExprList,
        (∀ name params ret body,
            Expr.defunDeploy name params ret body ∈ exprs.toList →
            PhaseSeparator.seqReaches body = false) →
        PhaseSeparator.validate_deploy_phase exprs = .ok ()) := by
  refine ⟨PhaseSeparator.validate_isError, fun exprs h => ?_⟩
  refine eq_ok_of_isError_false ?_
  rw [PhaseSeparator.validate_isError]
  exact PhaseSeparator.anyDeployDetects_eq_false exprs h

/-- C1 counterexample: a `While` loop (compile-only) nested inside a
`Let` body under a `DefunDeploy` body is transitively reachable, yet
`validate_deploy_phase` returns `Ok`: the claim's `Err` direction
fails for nesting inside `Let` (and likewise `If`/`FunctionCall`). -/
theorem C1_nested_compile_counterexample :
    Expr.is_compile_only (.whileLoop (.bool true) .nil) = true
    ∧ PhaseSeparator.validate_deploy_phase deployWithLetWhile = .ok () :=
  ⟨rfl, rfl⟩

/-- C1 witness: the characterization applied to scenario S1's program,
whose body reaches no compile-only node. -/
theorem C1_validate_deploy_phase_characterization_witness :
    PhaseSeparator.validate_deploy_phase addProgram = .ok () :=
  C1_validate_deploy_phase_characterization.2 addProgram (by
    intro n p r b hmem
    simp only [addProgram, ExprList.toList, List.mem_singleton,
      Expr.defunDeploy.injEq] at hmem
    obtain ⟨-, -, -, rfl⟩ := hmem
    rfl)

/-- C10 witness: `sleep-ms` at `−5`, at `7`, and at a boolean
argument. -/
theorem C10_sleep_negative_cast_witness :
    (ResourceAnalyzer.analyze (.sleepMs (.int (-5)))
        = ⟨((2 : Int) ^ 64 + (-5)).toNat, 0, 0, 0⟩
      ∧ 2 ^ 63 ≤ (((2 : Int) ^ 64 + (-5)).toNat))
    ∧ ResourceAnalyzer.analyze (.sleepMs (.int 7)) = ⟨(7 : Int).toNat, 0, 0, 0⟩
    ∧ ResourceAnalyzer.analyze (.sleepMs (.bool true)) = ⟨1000, 0, 0, 0⟩ :=
  ⟨C10_sleep_negative_cast.2.2.1 (-5) (by norm_num) (by norm_num),
   C10_sleep_negative_cast.2.1 7 (by norm_num) (by norm_num),
   C10_sleep_negative_cast.2.2.2 (.bool true) (fun n h => by cases h)⟩

/-- C5 counterexample: the call graph of scenario S1's program does not
have a single node — the dangling callee `+` becomes a node of its own,
so `function_count()` is not `1`. -/
theorem C5_single_node_counterexample :
    (CallGraph.build addProgram).function_count ≠ 1 := by decide

/-- C5 (amended): the call graph of `(defun-deploy add (a b) : int32
(+ a b))` has exactly two nodes, `add` and the dangling callee `+`, one
edge `add → +`, and is acyclic: `function_count() = 2` and
`has_cycles() = false`. -/
theorem C5_add_program_call_graph :
    (CallGraph.build addProgram).nodes = ["add", "+"]
    ∧ (CallGraph.build addProgram).edges = [("add", "+")]
    ∧ (CallGraph.build addProgram).function_count = 2
    ∧ (CallGraph.build addProgram).has_cycles = false := by
  refine ⟨by decide, by decide, by decide, by decide⟩

namespace CallGraph

/-- A successful Kahn run is a permutation of the remaining nodes. -/
theorem kahn_some_perm (edges : List (String × String)) :
    ∀ (fuel : Nat) (rem ord : List String),
      kahn edges fuel rem = some ord → ord.Perm rem := by
  intro fuel
  induction fuel with
  | zero =>
      intro rem ord h
      cases rem with
      | nil =>
          simp only [kahn, Option.some.injEq] at h
          subst h
          exact List.Perm.refl _
      | cons a rest => simp only [kahn] at h; cases h
  | succ fuel ih =>
      intro rem ord h
      cases rem with
      | nil =>
          simp only [kahn, Option.some.injEq] at h
          subst h
          exact List.Perm.refl _
      | cons a rest =>
          simp only [kahn] at h
          cases hf : (a :: rest).find? (noIncoming edges (a :: rest)) with
          | none => simp only [hf] at h; cases h
          | some w =>
              simp only [hf] at h
              cases hk : kahn edges fuel ((a :: rest).erase w) with
              | none => simp only [hk, Option.map_none'] at h; cases h
              | some tail =>
                  simp only [hk, Option.map_some', Option.some.injEq] at h
                  subst h
                  have hw : w ∈ a :: rest := List.mem_of_find?_eq_some hf
                  exact ((ih _ _ hk).cons w).trans (List.perm_cons_erase hw).symm

/-- In a successful Kahn run, every edge inside the remaining node set
is respected by the emitted order. -/
theorem kahn_some_indexOf (edges : List (String × String)) :
    ∀ (fuel : Nat) (rem ord : List String),
      kahn edges fuel rem = some ord →
      ∀ u v, (u, v) ∈ edges → u ∈ rem → v ∈ rem →
        ord.indexOf u < ord.indexOf v := by
  intro fuel
  induction fuel with
  | zero =>
      intro rem ord h u v _ hu _
      cases rem with
      | nil => cases hu
      | cons a rest => simp only [kahn] at h; cases h
  | succ fuel ih =>
      intro rem ord h u v hedge hu hv
      cases rem with
      | nil => cases hu
      | cons a rest =>
          simp only [kahn] at h
          cases hf : (a :: rest).find? (noIncoming edges (a :: rest)) with
          | none => simp only [hf] at h; cases h
          | some w =>
              simp only [hf] at h
              cases hk : kahn edges fuel ((a :: rest).erase w) with
              | none => simp only [hk, Option.map_none'] at h; cases h
              | some tail =>
                  simp only [hk, Option.map_some', Option.some.injEq] at h
                  subst h
                  have hno : noIncoming edges (a :: rest) w = true :=
                    List.find?_some hf
                  simp only [noIncoming, List.all_eq_true, Bool.not_eq_true',
                    Bool.and_eq_false_iff, beq_eq_false_iff_ne, ne_eq,
                    List.contains, List.elem_eq_mem, decide_eq_false_iff_not] at hno
                  by_cases hvw : v = w
                  · exfalso
                    rcases hno (u, v) hedge with h2 | h1
                    · exact h2 hvw
                    · exact h1 hu
                  · by_cases huw : u = w
                    · subst huw
                      rw [List.indexOf_cons_self]
                      rw [List.indexOf_cons_ne _ (fun hh => hvw hh.symm)]
                      exact Nat.succ_pos _
                    · have hu' : u ∈ (a :: rest).erase w :=
                        (List.mem_erase_of_ne huw).mpr hu
                      have hv' : v ∈ (a :: rest).erase w :=
                        (List.mem_erase_of_ne hvw).mpr hv
                      have := ih _ _ hk u v hedge hu' hv'
                      rw [List.indexOf_cons_ne _ (fun hh => huw hh.symm),
                        List.indexOf_cons_ne _ (fun hh => hvw hh.symm)]
                      exact Nat.succ_lt_succ this

/-- Pigeonhole: if every node of a nonempty finite set has a
predecessor inside the set, the edge relation has a cycle. -/
theorem exists_cycle_of_all_incoming (edges : List (String × String))
    (rem : List String) (hne : rem ≠ [])
    (hin : ∀ v ∈ rem, ∃ u ∈ rem, (u, v) ∈ edges) :
    ∃ c, Relation.TransGen (fun a b => (a, b) ∈ edges) c c := by
  have h' : ∀ v : {x // x ∈ rem}, ∃ u : {x // x ∈ rem},
      (u.val, v.val) ∈ edges := by
    rintro ⟨v, hv⟩
    obtain ⟨u, hu, he⟩ := hin v hv
    exact ⟨⟨u, hu⟩, he⟩
  choose f hf using h'
  obtain ⟨v₀, hv₀⟩ := List.exists_mem_of_ne_nil rem hne
  have hstep : ∀ (k : Nat) (y : {x // x ∈ rem}),
      Relation.TransGen (fun a b => (a, b) ∈ edges) (f^[k + 1] y).val y.val := by
    intro k
    induction k with
    | zero =>
        intro y
        simpa using Relation.TransGen.single (hf y)
    | succ k ihk =>
        intro y
        rw [Function.iterate_succ_apply']
        exact Relation.TransGen.head (hf (f^[k + 1] y)) (ihk y)
  have key : ∀ a b : Nat, a < b →
      (f^[a] ⟨v₀, hv₀⟩).val = (f^[b] ⟨v₀, hv₀⟩).val →
      ∃ c, Relation.TransGen (fun x y => (x, y) ∈ edges) c c := by
    intro a b hab hfeq
    obtain ⟨d, rfl⟩ : ∃ d, b = (d + 1) + a := ⟨b - a - 1, by omega⟩
    rw [Function.iterate_add_apply] at hfeq
    refine ⟨(f^[a] ⟨v₀, hv₀⟩).val, ?_⟩
    have := hstep d (f^[a] ⟨v₀, hv₀⟩)
    rwa [← hfeq] at this
  have hmaps : ∀ i : Fin (rem.length + 1),
      i ∈ (Finset.univ : Finset (Fin (rem.length + 1))) →
      (f^[i.val] ⟨v₀, hv₀⟩).val ∈ rem.toFinset := fun i _ =>
    List.mem_toFinset.mpr (f^[i.val] ⟨v₀, hv₀⟩).property
  have hcard : rem.toFinset.card
      < (Finset.univ : Finset (Fin (rem.length + 1))).card := by
    have h1 : rem.toFinset.card ≤ rem.length := rem.toFinset_card_le
    simp only [Finset.card_univ, Fintype.card_fin]
    omega
  obtain ⟨i, -, j, -, hij, heq⟩ :=
    Finset.exists_ne_map_eq_of_card_lt_of_maps_to hcard hmaps
  rcases lt_or_gt_of_ne (fun hval => hij (Fin.ext hval)) with hlt | hgt
  · exact key i.val j.val hlt heq
  · exact key j.val i.val hgt heq.symm

/-- A failing Kahn run (with sufficient fuel) exhibits a cycle. -/
theorem kahn_none_cycle (edges : List (String × String)) :
    ∀ (fuel : Nat) (rem : List String), rem.length ≤ fuel →
      kahn edges fuel rem = none →
      ∃ c, Relation.TransGen (fun a b => (a, b) ∈ edges) c c := by
  intro fuel
  induction fuel with
  | zero =>
      intro rem hlen h
      cases rem with
      | nil => simp only [kahn] at h; cases h
      | cons a rest => simp at hlen
  | succ fuel ih =>
      intro rem hlen h
      cases rem with
      | nil => simp only [kahn] at h; cases h
      | cons a rest =>
          simp only [kahn] at h
          cases hf : (a :: rest).find? (noIncoming edges (a :: rest)) with
          | none =>
              apply exists_cycle_of_all_incoming edges (a :: rest) (by simp)
              intro v hv
              have hnot := List.find?_eq_none.mp hf v hv
              simp only [noIncoming, List.all_eq_true, Bool.not_eq_true',
                Bool.and_eq_false_iff, beq_eq_false_iff_ne, ne_eq,
                List.contains, List.elem_eq_mem, decide_eq_false_iff_not] at hnot
              push_neg at hnot
              obtain ⟨⟨u', v'⟩, hmem, h2, h1⟩ := hnot
              rcases h2 with rfl
              exact ⟨u', h1, hmem⟩
          | some w =>
              simp only [hf] at h
              cases hk : kahn edges fuel ((a :: rest).erase w) with
              | none =>
                  refine ih _ ?_ hk
                  have hw : w ∈ a :: rest := List.mem_of_find?_eq_some hf
                  rw [List.length_erase_of_mem hw]
                  simp only [List.length_cons] at hlen ⊢
                  omega
              | some tail => simp only [hk, Option.map_some'] at h; cases h

/-- Topological validity of a Kahn run excludes cycles restricted to
the node set. -/
theorem transGen_indexOf_lt {g : CallGraph} {ord : List String}
    (hwf : g.WF) (hk : kahn g.edges g.nodes.length g.nodes = some ord) :
    ∀ u v, Relation.TransGen g.Step u v → ord.indexOf u < ord.indexOf v := by
  intro u v h
  induction h with
  | single hstep =>
      exact kahn_some_indexOf _ _ _ _ hk _ _ hstep
        (hwf _ hstep).1 (hwf _ hstep).2
  | tail _ hstep ih =>
      exact lt_trans ih (kahn_some_indexOf _ _ _ _ hk _ _ hstep
        (hwf _ hstep).1 (hwf _ hstep).2)

/-- Kahn succeeds exactly on acyclic well-formed graphs. -/
theorem kahn_isSome_iff {g : CallGraph} (hwf : g.WF) :
    (kahn g.edges g.nodes.length g.nodes).isSome ↔ ¬ g.HasCycle := by
  constructor
  · intro hsome hcyc
    obtain ⟨c, hc⟩ := hcyc
    obtain ⟨ord, hk⟩ := Option.isSome_iff_exists.mp hsome
    exact lt_irrefl _ (transGen_indexOf_lt hwf hk c c hc)
  · intro hnc
    by_contra hnone
    have hn : kahn g.edges g.nodes.length g.nodes = none :=
      Option.not_isSome_iff_eq_none.mp hnone
    obtain ⟨c, hc⟩ := kahn_none_cycle g.edges g.nodes.length g.nodes le_rfl hn
    exact hnc ⟨c, hc⟩

/-- The model of `is_cyclic_directed` agrees with the existence of a
directed cycle, as petgraph's documented contract demands. -/
theorem hasCycles_iff_hasCycle {g : CallGraph} (hwf : g.WF) :
    g.has_cycles = true ↔ g.HasCycle := by
  unfold has_cycles
  rw [Option.isNone_iff_eq_none]
  constructor
  · intro hn
    obtain ⟨c, hc⟩ := kahn_none_cycle g.edges g.nodes.length g.nodes le_rfl hn
    exact ⟨c, hc⟩
  · intro hcyc
    by_contra hne
    have : (kahn g.edges g.nodes.length g.nodes).isSome := by
      cases h : kahn g.edges g.nodes.length g.nodes with
      | none => exact absurd h hne
      | some ord => simp
    exact (kahn_isSome_iff hwf).mp this hcyc

/-- `add_function` leaves edges unchanged. -/
theorem add_function_edges (g : CallGraph) (n : String) :
    (g.add_function n).edges = g.edges := by
  unfold add_function
  split <;> rfl

/-- `add_function` never removes nodes. -/
theorem add_function_nodes_mono {g : CallGraph} {x : String} (n : String)
    (h : x ∈ g.nodes) : x ∈ (g.add_function n).nodes := by
  unfold add_function
  split
  · exact h
  · exact List.mem_append_left _ h

/-- `add_function` preserves well-formedness. -/
theorem wf_add_function {g : CallGraph} (n : String) (h : g.WF) :
    (g.add_function n).WF := by
  intro p hp
  rw [add_function_edges] at hp
  exact ⟨add_function_nodes_mono n (h p hp).1, add_function_nodes_mono n (h p hp).2⟩

/-- `add_call` preserves well-formedness. -/
theorem wf_add_call {g : CallGraph} (a b : String) (h : g.WF) :
    (g.add_call a b).WF := by
  have h' : (g.add_function b).WF := wf_add_function b h
  by_cases hcond : a ∈ (g.add_function b).nodes ∧ b ∈ (g.add_function b).nodes
  · have heq : g.add_call a b =
        { nodes := (g.add_function b).nodes,
          edges := (g.add_function b).edges ++ [(a, b)] } := by
      simp [add_call, hcond]
    rw [heq]
    intro p hp
    rcases List.mem_append.mp hp with hp | hp
    · exact h' p hp
    · rcases List.mem_singleton.mp hp with rfl
      exact ⟨hcond.1, hcond.2⟩
  · have heq : g.add_call a b = g.add_function b := by
      simp [add_call, hcond]
    rw [heq]
    exact h'

/-- Folding `add_call` over a callee list preserves well-formedness. -/
theorem wf_foldl_add_call (caller : String) :
    ∀ (cs : List String) (g : CallGraph), g.WF →
      (cs.foldl (fun g' callee => g'.add_call caller callee) g).WF
  | [], _, h => h
  | c :: cs, g, h =>
      wf_foldl_add_call caller cs (g.add_call caller c) (wf_add_call caller c h)

/-- The second build pass preserves well-formedness. -/
theorem wf_addCallsStep {g : CallGraph} (e : Expr) (h : g.WF) :
    (addCallsStep g e).WF := by
  cases e <;> simp only [addCallsStep] <;>
    first
      | exact h
      | exact wf_foldl_add_call _ _ _ h

/-- Folding the second build pass preserves well-formedness. -/
theorem wf_foldl_addCallsStep :
    ∀ (l : List Expr) (g : CallGraph), g.WF → (l.foldl addCallsStep g).WF
  | [], _, h => h
  | e :: l, g, h => wf_foldl_addCallsStep l (addCallsStep g e) (wf_addCallsStep e h)

/-- The first build pass preserves well-formedness. -/
theorem wf_addFunctionStep {g : CallGraph} (e : Expr) (h : g.WF) :
    (addFunctionStep g e).WF := by
  cases e <;> simp only [addFunctionStep] <;>
    first
      | exact h
      | exact wf_add_function _ h

/-- Folding the first build pass preserves well-formedness. -/
theorem wf_foldl_addFunctionStep :
    ∀ (l : List Expr) (g : CallGraph), g.WF → (l.foldl addFunctionStep g).WF
  | [], _, h => h
  | e :: l, g, h =>
      wf_foldl_addFunctionStep l (addFunctionStep g e) (wf_addFunctionStep e h)

/-- Graphs produced by `build` are well-formed. -/
theorem build_wf (exprs : ExprList) : (build exprs).WF := by
  unfold build
  apply wf_foldl_addCallsStep
  apply wf_foldl_addFunctionStep
  intro p hp
  cases hp

end CallGraph

/-- C6: for every call graph produced by `build`, `topological_order`
returns `some` exactly when the graph has no directed cycle, and any
returned order is a permutation of all node names in which the source
of every edge appears strictly before its target. -/
theorem C6_topological_order_correct (exprs : ExprList) :
    ((CallGraph.build exprs).topological_order.isSome
        ↔ ¬ (CallGraph.build exprs).HasCycle)
    ∧ (∀ ord, (CallGraph.build exprs).topological_order = some ord →
        ord.Perm (CallGraph.build exprs).nodes
        ∧ ∀ u v, (CallGraph.build exprs).Step u v →
            ord.indexOf u < ord.indexOf v) := by
  have hwf := CallGraph.build_wf exprs
  constructor
  · unfold CallGraph.topological_order CallGraph.has_cycles
    cases hk : CallGraph.kahn (CallGraph.build exprs).edges
        (CallGraph.build exprs).nodes.length (CallGraph.build exprs).nodes with
    | none =>
        simp only [hk, Option.isNone_none, if_true, Option.isSome_none,
          Bool.false_eq_true, false_iff, not_not]
        obtain ⟨c, hc⟩ := CallGraph.kahn_none_cycle _ _ _ le_rfl hk
        exact ⟨c, hc⟩
    | some ord =>
        simp only [hk, Option.isNone_some, Bool.false_eq_true, if_false,
          Option.isSome_some, true_iff]
        intro hcyc
        obtain ⟨c, hc⟩ := hcyc
        exact lt_irrefl _ (CallGraph.transGen_indexOf_lt hwf hk c c hc)
  · intro ord hord
    unfold CallGraph.topological_order at hord
    split at hord
    · cases hord
    · exact ⟨CallGraph.kahn_some_perm _ _ _ _ hord, fun u v hstep =>
        CallGraph.kahn_some_indexOf _ _ _ _ hord u v hstep
          (hwf _ hstep).1 (hwf _ hstep).2⟩

/-- C6 witness: the acyclic two-function program `main → helper` from
the source tests, whose topological order is `["main", "helper"]`. -/
theorem C6_topological_order_correct_witness :
    (CallGraph.build mainHelperProgram).topological_order = some ["main", "helper"]
    ∧ (["main", "helper"].Perm (CallGraph.build mainHelperProgram).nodes
        ∧ ∀ u v, (CallGraph.build mainHelperProgram).Step u v →
            (["main", "helper"] : List String).indexOf u
              < (["main", "helper"] : List String).indexOf v) :=
  ⟨by decide, (C6_topological_order_correct mainHelperProgram).2 _ (by decide)⟩

/-- An erring `Except` computation carries some error value. -/
theorem exists_error_of_isError {x : Except ε α} (h : isError x = true) :
    ∃ e, x = .error e := by
  cases x with
  | error e => exact ⟨e, rfl⟩
  | ok v => simp [isError] at h

/-- `check_loops` rejects every unbounded loop node with the matching
`UnboundedLoop` payload. -/
theorem check_loops_loop_node (w : Expr) (hw : isLoopNode w = true) :
    TerminationChecker.check_loops w = .error (.UnboundedLoop (loopKind w)) := by
  cases w <;> simp_all [isLoopNode, loopKind, TerminationChecker.check_loops]

/-- The loop check over a sequence fails once some member fails. -/
theorem checkLoopsList_isError_of_mem : ∀ (l : ExprList) (e : Expr),
    e ∈ l.toList → isError (TerminationChecker.check_loops e) = true →
    isError (TerminationChecker.checkLoopsList l) = true
  | .nil, e, hmem, _ => absurd hmem (by simp [ExprList.toList])
  | .cons e' es, e, hmem, herr => by
      simp only [TerminationChecker.checkLoopsList, isError_bind_k, Bool.or_eq_true]
      rcases List.mem_cons.mp (by simpa [ExprList.toList] using hmem) with rfl | h'
      · exact Or.inl herr
      · exact Or.inr (checkLoopsList_isError_of_mem es e h' herr)

/-- The loop check over a sequence reports the first failing member's
error; in particular an unbounded loop node preceded only by passing
expressions yields its `UnboundedLoop` error. -/
theorem checkLoopsList_first_loop : ∀ (l : ExprList) (pre : List Expr) (w : Expr)
    (rest : List Expr), l.toList = pre ++ w :: rest →
    (∀ e ∈ pre, TerminationChecker.check_loops e = .ok ()) →
    isLoopNode w = true →
    TerminationChecker.checkLoopsList l = .error (.UnboundedLoop (loopKind w))
  | .nil, pre, w, rest, h, _, _ => by
      simp only [ExprList.toList] at h
      exact absurd h.symm (List.append_ne_nil_of_right_ne_nil pre (by simp))
  | .cons e es, pre, w, rest, h, hpre, hw => by
      simp only [ExprList.toList] at h
      cases pre with
      | nil =>
          simp only [List.nil_append, List.cons.injEq] at h
          obtain ⟨rfl, -⟩ := h
          show (TerminationChecker.check_loops e >>= fun _ =>
            TerminationChecker.checkLoopsList es) = _
          rw [check_loops_loop_node e hw]
          rfl
      | cons p pre' =>
          simp only [List.cons_append, List.cons.injEq] at h
          obtain ⟨rfl, h⟩ := h
          show (TerminationChecker.check_loops e >>= fun _ =>
            TerminationChecker.checkLoopsList es) = _
          rw [hpre e (List.mem_cons_self e pre')]
          exact checkLoopsList_first_loop es pre' w rest h
            (fun x hx => hpre x (List.mem_cons_of_mem e hx)) hw

/-- C9 (amended): when the call graph is acyclic, `check_terminates`
fails on any sequence containing a top-level `While` or `For` node
(even compile-time code outside every `DefunDeploy` body); the error is
`UnboundedLoop` with that node's kind precisely when all earlier
top-level expressions pass `check_loops` — an earlier failing
expression (e.g. a `BoundedFor` with non-literal bounds) wins instead
(`C9_first_failure_counterexample`). -/
theorem C9_top_level_loops_rejected (exprs : ExprList) (w : Expr)
    (hcyc : (CallGraph.build exprs).has_cycles = false)
    (hw : isLoopNode w = true) :
    (w ∈ exprs.toList →
      ∃ err, (TerminationChecker.new exprs).check_terminates exprs = .error err)
    ∧ (∀ pre rest, exprs.toList = pre ++ w :: rest →
        (∀ e ∈ pre, TerminationChecker.check_loops e = .ok ()) →
        (TerminationChecker.new exprs).check_terminates exprs
          = .error (.UnboundedLoop (loopKind w))) := by
  have hct : (TerminationChecker.new exprs).check_terminates exprs
      = TerminationChecker.checkLoopsList exprs := by
    simp [TerminationChecker.new, TerminationChecker.check_terminates, hcyc]
  constructor
  · intro hmem
    rw [hct]
    refine exists_error_of_isError
      (checkLoopsList_isError_of_mem exprs w hmem ?_)
    rw [check_loops_loop_node w hw]
    rfl
  · intro pre rest hsplit hpre
    rw [hct]
    exact checkLoopsList_first_loop exprs pre w rest hsplit hpre hw

/-- C9 counterexample: with an acyclic call graph and a top-level
`While` present, `check_terminates` can still return `UnknownBounds`
rather than `UnboundedLoop`, because an earlier top-level `BoundedFor`
with a non-literal bound fails first. -/
theorem C9_first_failure_counterexample :
    (CallGraph.build unknownBoundsThenWhile).has_cycles = false
    ∧ isLoopNode (.whileLoop (.bool true) .nil) = true
    ∧ (Expr.whileLoop (.bool true) .nil) ∈ unknownBoundsThenWhile.toList
    ∧ (TerminationChecker.new unknownBoundsThenWhile).check_terminates
        unknownBoundsThenWhile = .error (.UnknownBounds "bounded-for i")
    ∧ ∀ s, (TerminationChecker.new unknownBoundsThenWhile).check_terminates
        unknownBoundsThenWhile ≠ .error (.UnboundedLoop s) := by
  refine ⟨by decide, rfl, by simp [unknownBoundsThenWhile, ExprList.toList],
    rfl, fun s h => ?_⟩
  rw [show (TerminationChecker.new unknownBoundsThenWhile).check_terminates
      unknownBoundsThenWhile = .error (.UnknownBounds "bounded-for i") from rfl] at h
  simp at h

/-- C9 witness: a single top-level `While` loop is rejected with
`UnboundedLoop "while loop"`. -/
theorem C9_top_level_loops_rejected_witness :
    (TerminationChecker.new (.cons (.whileLoop (.bool true) .nil) .nil)).check_terminates
      (.cons (.whileLoop (.bool true) .nil) .nil)
      = .error (.UnboundedLoop (loopKind (.whileLoop (.bool true) .nil))) :=
  (C9_top_level_loops_rejected (.cons (.whileLoop (.bool true) .nil) .nil)
      (.whileLoop (.bool true) .nil) (by decide) rfl).2 [] [] rfl
    (fun e h => absurd h (List.not_mem_nil e))

end Oblibeny
